import Mathlib

/-!
# Pack calculator

A shallow embedding of `internal/calculator/calculator.go`, of the registry in
`internal/storage/storage.go` and of the handler `Calculate` in
`internal/handler/handler.go`, and proofs about them.

A Go `int` is 64 bits wide: its values are the `Int`s that satisfy `IsInt`, and
`wrapInt` is its wrap-around.  In `Calculate` the sum `maxTarget := amount + largestPack`
and the length `maxTarget + 1` wrap around, and `make([]int, maxTarget+1)` panics for a
length that is negative or above `maxSliceLen`; the call then returns nothing, which is
the outcome `none`.  In a run that got its two tables every number that occurs is at
most `2 * maxSliceLen`, far below the range of `int`, so the arithmetic after `make` is
written without wrap-around.  Whether the machine has the memory for tables of a length
that `make` accepts is not modelled.  The sentinel `impossible` is `math.MaxInt32`, as in
the source.

A Go slice is a `List Int`; the map returned by `Calculate` is an association
list with pairwise distinct keys.  Index expressions `xs[i]` read position
`i.toNat`; for the positive pack sizes that `New` and `SetPackSizes` enforce
every index that is read or written lies inside its table.

A method that changes its receiver returns the receiver after the call next to its
result.  The accumulator of `parsePositiveInt` wraps around as well.  A handler whose
call into the calculator panics writes no reply; its outcome is `none`.
-/

namespace PackCalculator

/-- The three error values of the package. -/
inductive CalcError
  | ErrNoPackSizes
  | ErrInvalidAmount
  | ErrInvalidPackSize
  deriving DecidableEq, Repr

/-- The struct `Calculator`: the pack sizes, kept sorted descending. -/
structure Calculator where
  packSizes : List Int
  deriving DecidableEq, Repr

/-- The map `map[int]int` returned by `Calculate`: key, quantity. -/
abbrev Plan := List (Int × Int)

/-- The struct `CalculationResult`. -/
structure CalculationResult where
  Packs : Plan
  TotalItems : Int
  TotalPacks : Int
  OrderAmount : Int
  deriving DecidableEq, Repr

/-- The copy loop shared by `New` and `SetPackSizes`: every element is checked
in order and copied; the first element `<= 0` aborts with `ErrInvalidPackSize`. -/
def copySizes : List Int → Except CalcError (List Int)
  | [] => .ok []
  | size :: rest =>
    if size ≤ 0 then .error .ErrInvalidPackSize
    else
      match copySizes rest with
      | .ok sizes => .ok (size :: sizes)
      | .error e => .error e

/-- The call `sort.Sort(sort.Reverse(sort.IntSlice(sizes)))`: the descending
rearrangement of the slice. -/
def sortDescending (sizes : List Int) : List Int :=
  sizes.insertionSort (fun a b => b ≤ a)

/-- The constructor `New`. -/
def New (packSizes : List Int) : Except CalcError Calculator :=
  if packSizes.length = 0 then .error .ErrNoPackSizes
  else
    match copySizes packSizes with
    | .error e => .error e
    | .ok sizes => .ok { packSizes := sortDescending sizes }

/-- The method `GetPackSizes`: a copy of the stored slice. -/
def GetPackSizes (c : Calculator) : List Int :=
  c.packSizes

/-- The constant `impossible = math.MaxInt32`. -/
def impossible : Int := 2147483647

/-- Arithmetic of a 64-bit `int`: the value is reduced into `[-2^63, 2^63)`. -/
def wrapInt (x : Int) : Int :=
  (x + 9223372036854775808) % 18446744073709551616 - 9223372036854775808

/-- The largest `n` for which `make([]int, n)` does not panic: the runtime refuses a slice
of more than `maxAlloc = 2^48` bytes, and an `int` takes eight. -/
def maxSliceLen : Int := 35184372088832

/-- The read `xs[i]`. -/
def idx (xs : List Int) (i : Int) : Int :=
  xs.getD i.toNat 0

/-- The two tables of `Calculate`. -/
structure Table where
  dp : List Int
  parent : List Int
  deriving DecidableEq, Repr

/-- The body of the inner loop of the table construction, for the index `i`
and one pack size. -/
def relax (maxTarget i : Int) (t : Table) (packSize : Int) : Table :=
  let next := i + packSize
  if next > maxTarget then t
  else if idx t.dp i + 1 < idx t.dp next then
    { dp := t.dp.set next.toNat (idx t.dp i + 1)
      parent := t.parent.set next.toNat packSize }
  else t

/-- The body of the outer loop of the table construction. -/
def buildStep (packSizes : List Int) (maxTarget : Int) (t : Table) (i : Nat) : Table :=
  if idx t.dp i = impossible then t
  else packSizes.foldl (relax maxTarget i) t

/-- The tables after the initialisation loop and `dp[0] = 0`. -/
def initTable (maxTarget : Int) : Table :=
  { dp := (List.replicate (maxTarget + 1).toNat impossible).set 0 0
    parent := List.replicate (maxTarget + 1).toNat (-1) }

/-- The tables after the loop `for i := 0; i <= maxTarget; i++`. -/
def buildTable (packSizes : List Int) (maxTarget : Int) : Table :=
  (List.range (maxTarget + 1).toNat).foldl (buildStep packSizes maxTarget) (initTable maxTarget)

/-- The scan `for i := amount; i <= maxTarget; i++` started at `i` with `n`
iterations left; the result is `target`, which stays `-1` when no entry below
the sentinel is met. -/
def findTarget (dp : List Int) : Int → Nat → Int
  | _, 0 => -1
  | i, n + 1 => if idx dp i ≠ impossible then i else findTarget dp (i + 1) n

/-- The statement `result[pack]++` on a map. -/
def incr : Plan → Int → Plan
  | [], pack => [(pack, 1)]
  | (k, v) :: rest, pack => if k = pack then (k, v + 1) :: rest else (k, v) :: incr rest pack

/-- The loop `for current > 0` that follows `parent`, run for at most `fuel`
iterations; `none` when the loop has not finished by then. -/
def backtrack (parent : List Int) : Nat → Int → Plan → Option Plan
  | 0, current, result => if current > 0 then none else some result
  | fuel + 1, current, result =>
    if current > 0 then
      let pack := idx parent current
      if pack = -1 then some result
      else backtrack parent fuel (current - pack) (incr result pack)
    else some result

/-- The state in which the loop `for current > 0` ends: the map, the value of `current`,
and whether the loop was left through the `break` at `pack == -1`. -/
structure BacktrackEnd where
  result : Plan
  current : Int
  broke : Bool
  deriving DecidableEq, Repr

/-- The loop `for current > 0` with its whole end state, run for at most `fuel`
iterations; `none` when the loop has not finished by then. -/
def backtrackState (parent : List Int) : Nat → Int → Plan → Option BacktrackEnd
  | 0, current, result =>
    if current > 0 then none else some { result := result, current := current, broke := false }
  | fuel + 1, current, result =>
    if current > 0 then
      let pack := idx parent current
      if pack = -1 then some { result := result, current := current, broke := true }
      else backtrackState parent fuel (current - pack) (incr result pack)
    else some { result := result, current := current, broke := false }

/-- The values that `pack` takes in the loop `for current > 0`, in the order in which
the loop counts them. -/
def backtrackPacks (parent : List Int) : Nat → Int → List Int
  | 0, _ => []
  | fuel + 1, current =>
    if current > 0 then
      let pack := idx parent current
      if pack = -1 then [] else pack :: backtrackPacks parent fuel (current - pack)
    else []

/-- The method `Calculate`.  The outer `Option` is `none` when the call does not return:
`make([]int, maxTarget+1)` panics, for a length that is negative after the 64-bit
wrap-around of `amount + largestPack` or above `maxSliceLen`, or the backtracking loop
does not finish within `target` iterations. -/
def Calculate (c : Calculator) (amount : Int) : Option (Except CalcError Plan) :=
  if amount ≤ 0 then some (.error .ErrInvalidAmount)
  else if c.packSizes.length = 0 then some (.error .ErrNoPackSizes)
  else
    let smallestPack := c.packSizes.getLastD 0
    let largestPack := c.packSizes.headD 0
    let maxTarget := wrapInt (amount + largestPack)
    let size := wrapInt (maxTarget + 1)
    if size < 0 ∨ maxSliceLen < size then none
    else
      let t := buildTable c.packSizes maxTarget
      let target := findTarget t.dp amount (maxTarget - amount + 1).toNat
      if target = -1 then
        let packsNeeded := (amount + smallestPack - 1).tdiv smallestPack
        some (.ok [(smallestPack, packsNeeded)])
      else
        (backtrack t.parent target.toNat target []).map .ok

/-- The loop of `CalculateWithDetails` over the map: the pair
`(totalItems, totalPacks)`. -/
def totals (packs : Plan) : Int × Int :=
  packs.foldl (fun acc e => (acc.1 + e.1 * e.2, acc.2 + e.2)) (0, 0)

/-- The method `CalculateWithDetails`; `none` when `Calculate` does not return. -/
def CalculateWithDetails (c : Calculator) (amount : Int) :
    Option (Except CalcError CalculationResult) :=
  match Calculate c amount with
  | none => none
  | some (.error e) => some (.error e)
  | some (.ok packs) =>
    some (.ok { Packs := packs
                TotalItems := (totals packs).1
                TotalPacks := (totals packs).2
                OrderAmount := amount })

/-- The method `SetPackSizes` of the calculator: the calculator after the call and the
returned error (`none` for `nil`). -/
def SetPackSizes (c : Calculator) (packSizes : List Int) : Calculator × Option CalcError :=
  if packSizes.length = 0 then (c, some .ErrNoPackSizes)
  else
    match copySizes packSizes with
    | .error e => (c, some e)
    | .ok sizes => ({ packSizes := sortDescending sizes }, none)

/-! ## The package `storage`

The mutex of `MemoryStorage` is left out: every method holds it for its whole body, so a
call is one step on the stored slice. -/

/-- The struct `MemoryStorage`. -/
structure MemoryStorage where
  packSizes : List Int
  deriving DecidableEq, Repr

/-- The function `DefaultPackSizes`. -/
def DefaultPackSizes : List Int := [250, 500, 1000, 2000, 5000]

/-- The constructor `NewMemoryStorage`. -/
def NewMemoryStorage : MemoryStorage :=
  { packSizes := DefaultPackSizes }

/-- The constructor `NewMemoryStorageWithSizes`: the storage holds a copy of `sizes`. -/
def NewMemoryStorageWithSizes (sizes : List Int) : MemoryStorage :=
  { packSizes := sizes }

/-- The method `GetPackSizes` of the storage: a copy of the stored slice. -/
def MemoryStorage.GetPackSizes (s : MemoryStorage) : List Int :=
  s.packSizes

/-- The method `SetPackSizes` of the storage: the storage after the call and the returned
error, which is always `nil`. -/
def MemoryStorage.SetPackSizes (_s : MemoryStorage) (sizes : List Int) :
    MemoryStorage × Option String :=
  ({ packSizes := sizes }, none)

/-- The loop of `AddPackSize` over the stored sizes: whether one of them equals `size`. -/
def hasSize : List Int → Int → Bool
  | [], _ => false
  | existing :: rest, size => if existing = size then true else hasSize rest size

/-- The method `AddPackSize`: the storage after the call and the returned flag. -/
def MemoryStorage.AddPackSize (s : MemoryStorage) (size : Int) : MemoryStorage × Bool :=
  if hasSize s.packSizes size then (s, false)
  else ({ packSizes := s.packSizes ++ [size] }, true)

/-- The loop of `RemovePackSize`: the first index `i` with `packSizes[i] == size`. -/
def firstIndex : List Int → Int → Option Nat
  | [], _ => none
  | existing :: rest, size =>
    if existing = size then some 0 else (firstIndex rest size).map (· + 1)

/-- The method `RemovePackSize`: the storage after the call and the returned flag; at
the index found the slice becomes `append(packSizes[:i], packSizes[i+1:]...)`. -/
def MemoryStorage.RemovePackSize (s : MemoryStorage) (size : Int) : MemoryStorage × Bool :=
  match firstIndex s.packSizes size with
  | some i => ({ packSizes := s.packSizes.take i ++ s.packSizes.drop (i + 1) }, true)
  | none => (s, false)

/-! ## The package `handler` -/

/-- The struct `CalculateRequest`. -/
structure CalculateRequest where
  Amount : Int
  PackSizes : List Int
  deriving DecidableEq, Repr

/-- The struct `CalculateResponse`. -/
structure CalculateResponse where
  OrderAmount : Int
  TotalItems : Int
  TotalPacks : Int
  Packs : Plan
  PackSizes : List Int
  deriving DecidableEq, Repr

/-- The two methods that `RegisterRoutes` sends to `Calculate`. -/
inductive Method
  | GET
  | POST
  deriving DecidableEq, Repr

/-- What `Calculate` reads from its `*gin.Context`: the request method, the value of
`c.Query("amount")` (empty when the parameter is missing) and the outcome of
`c.ShouldBindJSON(&req)`, `none` when it returned an error. -/
structure CalculateCall where
  method : Method
  amountQuery : String
  body : Option CalculateRequest
  deriving DecidableEq, Repr

/-- The struct `Handler`, over the in-memory storage. -/
structure Handler where
  storage : MemoryStorage
  deriving DecidableEq, Repr

/-- What `Calculate` writes with `c.JSON`: a status with an `ErrorResponse` (its `Error`
field) or a status with a `CalculateResponse`. -/
inductive Reply
  | failure (status : Nat) (error : String)
  | success (status : Nat) (body : CalculateResponse)
  deriving DecidableEq, Repr

/-- The status code of a reply. -/
def Reply.status : Reply → Nat
  | .failure status _ => status
  | .success status _ => status

/-- The loop of `parsePositiveInt` over the runes of the string, with the accumulator
`n`. -/
def parseDigits : List Char → Int → Except CalcError Int
  | [], n => .ok n
  | c :: rest, n =>
    if c < '0' ∨ c > '9' then .error .ErrInvalidAmount
    else parseDigits rest (wrapInt (n * 10 + ((c.toNat : Int) - ('0'.toNat : Int))))

/-- The function `parsePositiveInt`. -/
def parsePositiveInt (s : String) : Except CalcError Int :=
  match parseDigits s.toList 0 with
  | .error e => .error e
  | .ok n => if n ≤ 0 then .error .ErrInvalidAmount else .ok n

/-- The part of the handler `Calculate` after `amount` and `packSizes` are set; `none`
when `CalculateWithDetails` does not return and the handler writes no reply. -/
def respondCalculate (amount : Int) (packSizes : List Int) : Option Reply :=
  if amount ≤ 0 then some (.failure 400 "invalid_amount")
  else
    match New packSizes with
    | .error _ => some (.failure 400 "calculator_error")
    | .ok calculator =>
      match CalculateWithDetails calculator amount with
      | none => none
      | some (.error _) => some (.failure 500 "calculation_error")
      | some (.ok result) =>
        some (.success 200
          { OrderAmount := result.OrderAmount
            TotalItems := result.TotalItems
            TotalPacks := result.TotalPacks
            Packs := result.Packs
            PackSizes := packSizes })

/-- The handler `Calculate`.  The outer `Option` is `none` only when
`CalculateWithDetails` does not return: the panic leaves the handler without a reply. -/
def Handler.Calculate (h : Handler) (call : CalculateCall) : Option Reply :=
  match call.method with
  | .GET =>
    if call.amountQuery = "" then some (.failure 400 "missing_amount")
    else
      match parsePositiveInt call.amountQuery with
      | .error _ => some (.failure 400 "invalid_amount")
      | .ok n => respondCalculate n h.storage.GetPackSizes
  | .POST =>
    match call.body with
    | none => some (.failure 400 "invalid_json")
    | some req =>
      if req.PackSizes.length > 0 then respondCalculate req.Amount req.PackSizes
      else respondCalculate req.Amount h.storage.GetPackSizes

/-- What `SetPackSizes` of the handler writes with `c.JSON`: a status with an
`ErrorResponse` (its `Error` field) or a status with a `PackSizesResponse` (its
`PackSizes` field). -/
inductive SizesReply
  | failure (status : Nat) (error : String)
  | success (status : Nat) (packSizes : List Int)
  deriving DecidableEq, Repr

/-- The status code of a reply of `SetPackSizes`. -/
def SizesReply.status : SizesReply → Nat
  | .failure status _ => status
  | .success status _ => status

/-- The loop of the handler `SetPackSizes` over the requested sizes: whether one of them
is `<= 0`. -/
def hasNonPositive : List Int → Bool
  | [] => false
  | size :: rest => if size ≤ 0 then true else hasNonPositive rest

/-- The handler `SetPackSizes`: the handler after the call and the reply.  The argument
is the outcome of `c.ShouldBindJSON(&req)`: the field `PackSizes` of the request, or
`none` when binding returned an error. -/
def Handler.SetPackSizes (h : Handler) (body : Option (List Int)) : Handler × SizesReply :=
  match body with
  | none => (h, .failure 400 "invalid_json")
  | some packSizes =>
    if packSizes.length = 0 then (h, .failure 400 "invalid_pack_sizes")
    else if hasNonPositive packSizes then (h, .failure 400 "invalid_pack_size")
    else
      let storage := (MemoryStorage.SetPackSizes h.storage packSizes).1
      ({ storage := storage }, .success 200 (MemoryStorage.GetPackSizes storage))

/-! ## Specification vocabulary -/

/-- The sum of `size * qty` over a plan. -/
def planItems (packs : Plan) : Int :=
  (packs.map (fun e => e.1 * e.2)).sum

/-- The sum of `qty` over a plan. -/
def planPacks (packs : Plan) : Int :=
  (packs.map (fun e => e.2)).sum

/-- A plan is well formed over `sizes` when every key is one of the sizes and
every stored quantity is at least one. -/
def PlanOver (sizes : List Int) (packs : Plan) : Prop :=
  ∀ e ∈ packs, e.1 ∈ sizes ∧ 1 ≤ e.2

/-- The state of the tables while the outer loop is at index `k` and the pack
sizes in `done` have been tried there. -/
structure TableInv (sizes : List Int) (maxTarget k : Int) (done : List Int) (t : Table) :
    Prop where
  len_dp : t.dp.length = (maxTarget + 1).toNat
  len_parent : t.parent.length = (maxTarget + 1).toNat
  dp_zero : idx t.dp 0 = 0
  dp_nonneg : ∀ n, 0 ≤ n → n ≤ maxTarget → 0 ≤ idx t.dp n
  dp_le : ∀ n, 0 ≤ n → n ≤ maxTarget → idx t.dp n ≤ impossible
  chain : ∀ n, 0 < n → n ≤ maxTarget → idx t.dp n ≠ impossible →
    idx t.parent n ∈ sizes ∧ n - idx t.parent n ≤ k ∧ 0 ≤ n - idx t.parent n ∧
      idx t.dp (n - idx t.parent n) ≠ impossible ∧
      idx t.dp n = idx t.dp (n - idx t.parent n) + 1
  closed : ∀ i p, 0 ≤ i → i < k → p ∈ sizes → i + p ≤ maxTarget →
    idx t.dp i ≠ impossible → idx t.dp (i + p) ≤ idx t.dp i + 1
  closed_cur : ∀ p ∈ done, k + p ≤ maxTarget →
    idx t.dp k ≠ impossible → idx t.dp (k + p) ≤ idx t.dp k + 1

/-- A multiset of packs, written as a list: every element is one of the sizes. -/
def PacksOf (sizes : List Int) (l : List Int) : Prop :=
  ∀ x ∈ l, x ∈ sizes

/-- The bound `maxTarget := amount + largestPack` of `Calculate`, a 64-bit `int`. -/
def maxTargetOf (c : Calculator) (amount : Int) : Int :=
  wrapInt (amount + c.packSizes.headD 0)

/-- The values of the Go type `int`, 64 bits wide. -/
def IsInt (x : Int) : Prop :=
  -9223372036854775808 ≤ x ∧ x < 9223372036854775808

/-- A run of `Calculate` gets its two tables: the length `amount + largestPack + 1` is
one that `make` accepts.  For an amount and pack sizes above zero that are values of
`int` this is when `make([]int, maxTarget+1)` does not panic. -/
def Allocates (c : Calculator) (amount : Int) : Prop :=
  amount + c.packSizes.headD 0 + 1 ≤ maxSliceLen

instance decidableIsInt (x : Int) : Decidable (IsInt x) :=
  inferInstanceAs (Decidable (_ ∧ _))

instance decidableAllocates (c : Calculator) (amount : Int) : Decidable (Allocates c amount) :=
  inferInstanceAs (Decidable (_ ≤ _))

/-- The tables of `Calculate` after the construction loop, in a run that got them. -/
def tableOf (c : Calculator) (amount : Int) : Table :=
  buildTable c.packSizes (maxTargetOf c amount)

/-- The value of `target` in `Calculate` after the scan; `-1` also for a run in which
`make` panics, which does not reach the scan. -/
def targetOf (c : Calculator) (amount : Int) : Int :=
  if Allocates c amount then
    findTarget (tableOf c amount).dp amount (maxTargetOf c amount - amount + 1).toNat
  else -1

/-- The plan of the fallback branch of `Calculate`. -/
def fallbackPlan (c : Calculator) (amount : Int) : Plan :=
  [(c.packSizes.getLastD 0, (amount + c.packSizes.getLastD 0 - 1).tdiv (c.packSizes.getLastD 0))]

/-- The calculators that `New` and `SetPackSizes` can store: some sizes, all positive. -/
def ValidCalc (c : Calculator) : Prop :=
  c.packSizes ≠ [] ∧ ∀ p ∈ c.packSizes, 0 < p

/-- One call on the storage. -/
inductive StorageOp
  | set (sizes : List Int)
  | add (size : Int)
  | remove (size : Int)
  deriving DecidableEq, Repr

/-- The storage after one call. -/
def StorageOp.apply (s : MemoryStorage) : StorageOp → MemoryStorage
  | .set sizes => (s.SetPackSizes sizes).1
  | .add size => (s.AddPackSize size).1
  | .remove size => (s.RemovePackSize size).1

/-- The storage after a sequence of calls. -/
def runOps (s : MemoryStorage) (ops : List StorageOp) : MemoryStorage :=
  ops.foldl StorageOp.apply s

/-- A call that hands only positive sizes to the storage. -/
def StorageOp.Positive : StorageOp → Prop
  | .set sizes => ∀ x ∈ sizes, 0 < x
  | .add size => 0 < size
  | .remove _ => True

/-- The amount of a request to `Calculate`, when it has one: the parsed query parameter
of a GET, the bound `amount` of a POST. -/
def requestAmount (call : CalculateCall) : Option Int :=
  match call.method with
  | .GET =>
    if call.amountQuery = "" then none
    else
      match parsePositiveInt call.amountQuery with
      | .error _ => none
      | .ok n => some n
  | .POST => call.body.map (fun req => req.Amount)

/-- The effective pack sizes of a request to `Calculate`: its own `pack_sizes` when it is
a POST that carries some, the contents of the registry otherwise. -/
def effectiveSizes (h : Handler) (call : CalculateCall) : List Int :=
  match call.method with
  | .GET => h.storage.GetPackSizes
  | .POST =>
    match call.body with
    | none => h.storage.GetPackSizes
    | some req => if req.PackSizes = [] then h.storage.GetPackSizes else req.PackSizes

/-- An ASCII digit. -/
def IsDigit (c : Char) : Prop :=
  '0' ≤ c ∧ c ≤ '9'

instance decidableIsDigit (c : Char) : Decidable (IsDigit c) :=
  inferInstanceAs (Decidable (_ ∧ _))

/-- The integer that a string of ASCII digits denotes in base ten. -/
def decimalValue (l : List Char) : Nat :=
  l.foldl (fun n c => n * 10 + (c.toNat - 48)) 0

/-- A request to `Calculate` without a usable amount: a GET whose `amount` parameter is
missing, holds a character that is not an ASCII digit (a sign, a space, a letter) or
denotes zero; a POST whose body does not bind or whose `amount` is `<= 0`. -/
def InvalidAmount (call : CalculateCall) : Prop :=
  match call.method with
  | .GET =>
    call.amountQuery = "" ∨ (∃ ch ∈ call.amountQuery.toList, ¬ IsDigit ch) ∨
      decimalValue call.amountQuery.toList = 0
  | .POST =>
    match call.body with
    | none => True
    | some req => req.Amount ≤ 0

/-- A request to `Calculate` with an input error: no usable amount, or effective pack
sizes that are empty or hold a value `<= 0`. -/
def InvalidCall (h : Handler) (call : CalculateCall) : Prop :=
  InvalidAmount call ∨ effectiveSizes h call = [] ∨ ∃ x ∈ effectiveSizes h call, x ≤ 0

/-- The packs of a plan written out as a list: `qty` copies of every `size`. -/
def planList : Plan → List Int
  | [] => []
  | (size, qty) :: rest => List.replicate qty.toNat size ++ planList rest

/-- The lexicographic order on lists of pack sizes: `lexLe l1 l2` when `l1` comes at or
before `l2`. -/
def lexLe : List Int → List Int → Prop
  | [], _ => True
  | _ :: _, [] => False
  | a :: l1, b :: l2 => a < b ∨ (a = b ∧ lexLe l1 l2)

/-- The tie-break state of the tables while the outer loop is at index `k` and the pack
sizes in `done` have been tried there: a pack size that was tried for the total `n` and
gives the count stored in `dp[n]` is at most the size stored in `parent[n]`. -/
def TieInv (sizes : List Int) (maxTarget k : Int) (done : List Int) (t : Table) : Prop :=
  ∀ n q, q ∈ sizes → 0 ≤ n - q → n ≤ maxTarget → (n - q < k ∨ (n - q = k ∧ q ∈ done)) →
    idx t.dp n ≠ impossible → idx t.dp n = idx t.dp (n - q) + 1 → q ≤ idx t.parent n

/-! ## Reading and writing table entries -/

theorem idx_set_self (xs : List Int) (i v : Int) (h : i.toNat < xs.length) :
    idx (xs.set i.toNat v) i = v := by
  simp [idx, List.getD_eq_getElem?_getD, List.getElem?_set, h]

theorem idx_set_other (xs : List Int) (i j v : Int) (h : i.toNat ≠ j.toNat) :
    idx (xs.set i.toNat v) j = idx xs j := by
  simp [idx, List.getD_eq_getElem?_getD, List.getElem?_set, h]

theorem idx_set_le (xs : List Int) (i j v : Int) (h : v ≤ idx xs i) :
    idx (xs.set i.toNat v) j ≤ idx xs j := by
  by_cases hij : i.toNat = j.toNat
  · by_cases hlen : i.toNat < xs.length
    · have hi : idx xs j = idx xs i := by simp [idx, hij]
      have hj : idx (xs.set i.toNat v) j = v := by
        unfold idx
        rw [← hij]
        simp [List.getD_eq_getElem?_getD, List.getElem?_set, hlen]
      omega
    · have hj : idx (xs.set i.toNat v) j = idx xs j := by
        have hlen2 : xs.length ≤ i.toNat := by omega
        simp [idx, List.set_eq_of_length_le hlen2]
      omega
  · rw [idx_set_other xs i j v hij]

theorem idx_replicate (n : Nat) (a i : Int) (h : i.toNat < n) :
    idx (List.replicate n a) i = a := by
  simp [idx, List.getD_eq_getElem?_getD, List.getElem?_replicate, h]

/-! ## The map and its totals -/

theorem totals_foldl (packs : Plan) (a b : Int) :
    packs.foldl (fun acc e => (acc.1 + e.1 * e.2, acc.2 + e.2)) (a, b)
      = (a + planItems packs, b + planPacks packs) := by
  induction packs generalizing a b with
  | nil => simp [planItems, planPacks]
  | cons e rest ih =>
    simp only [List.foldl_cons, ih, planItems, planPacks, List.map_cons, List.sum_cons]
    ext <;> simp <;> ring

theorem totals_eq (packs : Plan) : totals packs = (planItems packs, planPacks packs) := by
  have h := totals_foldl packs 0 0
  simp only [zero_add] at h
  exact h

theorem planItems_incr (packs : Plan) (pack : Int) :
    planItems (incr packs pack) = planItems packs + pack := by
  induction packs with
  | nil => simp [incr, planItems]
  | cons e rest ih =>
    obtain ⟨k, v⟩ := e
    by_cases h : k = pack
    · subst h
      simp [incr, planItems]
      ring
    · simp only [planItems] at ih
      simp [incr, h, planItems, ih]
      ring

theorem planPacks_incr (packs : Plan) (pack : Int) :
    planPacks (incr packs pack) = planPacks packs + 1 := by
  induction packs with
  | nil => simp [incr, planPacks]
  | cons e rest ih =>
    obtain ⟨k, v⟩ := e
    by_cases h : k = pack
    · subst h
      simp [incr, planPacks]
      ring
    · simp only [planPacks] at ih
      simp [incr, h, planPacks, ih]
      ring

theorem planOver_incr (sizes : List Int) (packs : Plan) (pack : Int)
    (h : PlanOver sizes packs) (hp : pack ∈ sizes) : PlanOver sizes (incr packs pack) := by
  induction packs with
  | nil =>
    intro e he
    simp [incr] at he
    subst he
    exact ⟨hp, le_refl _⟩
  | cons e rest ih =>
    obtain ⟨k, v⟩ := e
    have hhead := h (k, v) (List.mem_cons_self _ _)
    have hrest : PlanOver sizes rest := fun e he => h e (List.mem_cons_of_mem _ he)
    by_cases hk : k = pack
    · intro e he
      simp [incr, hk] at he
      rcases he with he | he
      · subst he
        simp at hhead
        exact ⟨hp, by simp; omega⟩
      · exact hrest e he
    · intro e he
      simp [incr, hk] at he
      rcases he with he | he
      · subst he
        exact hhead
      · exact ih hrest e he

/-! ## Validation of the pack sizes -/

theorem copySizes_ok (l : List Int) (h : ∀ x ∈ l, 0 < x) : copySizes l = .ok l := by
  induction l with
  | nil => rfl
  | cons a rest ih =>
    have ha : ¬ a ≤ 0 := by
      have := h a (List.mem_cons_self _ _)
      omega
    have hrest := ih (fun x hx => h x (List.mem_cons_of_mem _ hx))
    simp [copySizes, ha, hrest]

theorem copySizes_error (l : List Int) (h : ∃ x ∈ l, x ≤ 0) :
    copySizes l = .error .ErrInvalidPackSize := by
  induction l with
  | nil => simp at h
  | cons a rest ih =>
    by_cases ha : a ≤ 0
    · simp [copySizes, ha]
    · have hrest : ∃ x ∈ rest, x ≤ 0 := by
        obtain ⟨x, hx, hx0⟩ := h
        rcases List.mem_cons.1 hx with rfl | hx
        · exact absurd hx0 ha
        · exact ⟨x, hx, hx0⟩
      simp [copySizes, ha, ih hrest]

theorem New_of_valid (packSizes : List Int) (hne : packSizes ≠ [])
    (h : ∀ x ∈ packSizes, 0 < x) :
    New packSizes = .ok { packSizes := sortDescending packSizes } := by
  have hlen : packSizes.length ≠ 0 := by
    intro h0
    exact hne (List.length_eq_zero.1 h0)
  simp [New, hlen, copySizes_ok packSizes h]

theorem New_of_invalid (packSizes : List Int) (hne : packSizes ≠ [])
    (h : ∃ x ∈ packSizes, x ≤ 0) :
    New packSizes = .error .ErrInvalidPackSize := by
  have hlen : packSizes.length ≠ 0 := by
    intro h0
    exact hne (List.length_eq_zero.1 h0)
  simp [New, hlen, copySizes_error packSizes h]

theorem New_nil : New [] = .error .ErrNoPackSizes := rfl

theorem valid_or_invalid (packSizes : List Int) :
    (∀ x ∈ packSizes, 0 < x) ∨ (∃ x ∈ packSizes, x ≤ 0) := by
  by_cases h : ∀ x ∈ packSizes, 0 < x
  · exact Or.inl h
  · right
    push_neg at h
    exact h

theorem New_ok_iff (packSizes : List Int) (c : Calculator) :
    New packSizes = .ok c ↔
      packSizes ≠ [] ∧ (∀ x ∈ packSizes, 0 < x) ∧ c.packSizes = sortDescending packSizes := by
  constructor
  · intro hnew
    by_cases hne : packSizes = []
    · subst hne
      rw [New_nil] at hnew
      cases hnew
    · rcases valid_or_invalid packSizes with hv | hi
      · rw [New_of_valid packSizes hne hv] at hnew
        injection hnew with hc
        subst hc
        exact ⟨hne, hv, rfl⟩
      · rw [New_of_invalid packSizes hne hi] at hnew
        cases hnew
  · rintro ⟨hne, hv, hc⟩
    rw [New_of_valid packSizes hne hv]
    cases c
    simp at hc
    simp [hc]


/-! ## The invariant of the table construction -/

theorem relax_dp_at (maxTarget k : Int) (t : Table) (p : Int) (hk : 0 ≤ k) (hp : 0 < p) :
    idx (relax maxTarget k t p).dp k = idx t.dp k := by
  unfold relax
  simp only
  split
  · rfl
  · split
    · apply idx_set_other
      omega
    · rfl

theorem relax_inv (sizes : List Int) (hpos : ∀ p ∈ sizes, 0 < p) (maxTarget k : Int)
    (hk0 : 0 ≤ k) (done : List Int) (t : Table) (p : Int) (hp : p ∈ sizes)
    (h : TableInv sizes maxTarget k done t) :
    TableInv sizes maxTarget k (done ++ [p]) (relax maxTarget k t p) := by
  have hp0 : 0 < p := hpos p hp
  unfold relax
  simp only
  split
  · rename_i hgt
    refine { h with closed_cur := ?_ }
    intro q hq hqm hne
    rcases List.mem_append.1 hq with hq | hq
    · exact h.closed_cur q hq hqm hne
    · simp at hq
      subst hq
      omega
  · rename_i hgt
    split
    · rename_i hlt
      have hnextm : k + p ≤ maxTarget := by omega
      have hlen : (k + p).toNat < t.dp.length := by
        rw [h.len_dp]
        omega
      have hlenp : (k + p).toNat < t.parent.length := by
        rw [h.len_parent]
        omega
      have hA : ∀ n, 0 ≤ n → n ≠ k + p →
          idx (t.dp.set (k + p).toNat (idx t.dp k + 1)) n = idx t.dp n := by
        intro n hn hne
        apply idx_set_other
        omega
      have hAp : ∀ n, 0 ≤ n → n ≠ k + p →
          idx (t.parent.set (k + p).toNat p) n = idx t.parent n := by
        intro n hn hne
        apply idx_set_other
        omega
      have hB : idx (t.dp.set (k + p).toNat (idx t.dp k + 1)) (k + p) = idx t.dp k + 1 :=
        idx_set_self _ _ _ hlen
      have hBp : idx (t.parent.set (k + p).toNat p) (k + p) = p :=
        idx_set_self _ _ _ hlenp
      have hD : ∀ n, idx (t.dp.set (k + p).toNat (idx t.dp k + 1)) n ≤ idx t.dp n := by
        intro n
        apply idx_set_le
        omega
      have hknn : 0 ≤ idx t.dp k := h.dp_nonneg k hk0 (by omega)
      constructor
      · simp [h.len_dp]
      · simp [h.len_parent]
      · show idx (t.dp.set (k + p).toNat (idx t.dp k + 1)) 0 = 0
        rw [hA 0 (le_refl _) (by omega)]
        exact h.dp_zero
      · intro n hn hnm
        show 0 ≤ idx (t.dp.set (k + p).toNat (idx t.dp k + 1)) n
        by_cases hnn : n = k + p
        · subst hnn
          rw [hB]
          omega
        · rw [hA n hn hnn]
          exact h.dp_nonneg n hn hnm
      · intro n hn hnm
        show idx (t.dp.set (k + p).toNat (idx t.dp k + 1)) n ≤ impossible
        exact le_trans (hD n) (h.dp_le n hn hnm)
      · intro n hn hnm
        show idx (t.dp.set (k + p).toNat (idx t.dp k + 1)) n ≠ impossible →
          idx (t.parent.set (k + p).toNat p) n ∈ sizes ∧
          n - idx (t.parent.set (k + p).toNat p) n ≤ k ∧
          0 ≤ n - idx (t.parent.set (k + p).toNat p) n ∧
          idx (t.dp.set (k + p).toNat (idx t.dp k + 1))
            (n - idx (t.parent.set (k + p).toNat p) n) ≠ impossible ∧
          idx (t.dp.set (k + p).toNat (idx t.dp k + 1)) n =
            idx (t.dp.set (k + p).toNat (idx t.dp k + 1))
              (n - idx (t.parent.set (k + p).toNat p) n) + 1
        by_cases hnn : n = k + p
        · subst hnn
          intro _
          rw [hBp, hB]
          have hkk : k + p - p = k := by omega
          rw [hkk, hA k hk0 (by omega)]
          have hkne : idx t.dp k ≠ impossible := by
            have := h.dp_le (k + p) (by omega) hnextm
            omega
          exact ⟨hp, le_refl _, hk0, hkne, rfl⟩
        · rw [hA n (by omega) hnn, hAp n (by omega) hnn]
          intro hne
          obtain ⟨h1, h2, h3, h4, h5⟩ := h.chain n hn hnm hne
          rw [hA _ h3 (by omega)]
          exact ⟨h1, h2, h3, h4, h5⟩
      · intro i q hi hik hq hqm
        show idx (t.dp.set (k + p).toNat (idx t.dp k + 1)) i ≠ impossible →
          idx (t.dp.set (k + p).toNat (idx t.dp k + 1)) (i + q) ≤
            idx (t.dp.set (k + p).toNat (idx t.dp k + 1)) i + 1
        rw [hA i hi (by omega)]
        intro hne
        exact le_trans (hD _) (h.closed i q hi hik hq hqm hne)
      · intro q hq hqm
        show idx (t.dp.set (k + p).toNat (idx t.dp k + 1)) k ≠ impossible →
          idx (t.dp.set (k + p).toNat (idx t.dp k + 1)) (k + q) ≤
            idx (t.dp.set (k + p).toNat (idx t.dp k + 1)) k + 1
        rw [hA k hk0 (by omega)]
        intro hne
        rcases List.mem_append.1 hq with hq | hq
        · exact le_trans (hD _) (h.closed_cur q hq hqm hne)
        · simp at hq
          subst hq
          rw [hB]
    · rename_i hlt
      refine { h with closed_cur := ?_ }
      intro q hq hqm hne
      rcases List.mem_append.1 hq with hq | hq
      · exact h.closed_cur q hq hqm hne
      · simp at hq
        subst hq
        omega


theorem foldl_relax_inv (sizes : List Int) (hpos : ∀ p ∈ sizes, 0 < p) (maxTarget k : Int)
    (hk0 : 0 ≤ k) (rest : List Int) :
    ∀ (done : List Int) (t : Table), (∀ p ∈ rest, p ∈ sizes) →
      TableInv sizes maxTarget k done t →
      TableInv sizes maxTarget k (done ++ rest) (rest.foldl (relax maxTarget k) t) := by
  induction rest with
  | nil =>
    intro done t _ h
    simpa using h
  | cons p rest ih =>
    intro done t hmem h
    have hp : p ∈ sizes := hmem p (List.mem_cons_self _ _)
    have h1 := relax_inv sizes hpos maxTarget k hk0 done t p hp h
    have h2 := ih (done ++ [p]) (relax maxTarget k t p)
      (fun q hq => hmem q (List.mem_cons_of_mem _ hq)) h1
    simpa using h2

theorem inv_advance (sizes : List Int) (maxTarget k : Int) (done : List Int) (t : Table)
    (hdone : (∀ p ∈ sizes, p ∈ done) ∨ idx t.dp k = impossible)
    (h : TableInv sizes maxTarget k done t) :
    TableInv sizes maxTarget (k + 1) [] t := by
  refine { h with chain := ?_, closed := ?_, closed_cur := ?_ }
  · intro n hn hnm hne
    obtain ⟨h1, h2, h3, h4, h5⟩ := h.chain n hn hnm hne
    exact ⟨h1, by omega, h3, h4, h5⟩
  · intro i p hi hik hp hpm hne
    by_cases hlt : i < k
    · exact h.closed i p hi hlt hp hpm hne
    · have hik2 : i = k := by omega
      subst hik2
      rcases hdone with hd | hd
      · exact h.closed_cur p (hd p hp) hpm hne
      · exact absurd hd hne
  · intro p hp
    simp at hp

theorem buildStep_inv (sizes : List Int) (hpos : ∀ p ∈ sizes, 0 < p) (maxTarget : Int)
    (k : Nat) (t : Table) (h : TableInv sizes maxTarget k [] t) :
    TableInv sizes maxTarget ((k : Int) + 1) [] (buildStep sizes maxTarget t k) := by
  unfold buildStep
  split
  · rename_i himp
    exact inv_advance sizes maxTarget k [] t (Or.inr himp) h
  · have h1 := foldl_relax_inv sizes hpos maxTarget k (by omega) sizes [] t (fun p hp => hp) h
    exact inv_advance sizes maxTarget k _ _ (Or.inl (fun p hp => by simpa using hp)) h1

theorem initTable_idx_dp (maxTarget n : Int) (hn : 0 < n) (hnm : n ≤ maxTarget) :
    idx (initTable maxTarget).dp n = impossible := by
  unfold initTable
  simp only
  have h0 : (0 : Nat) = (0 : Int).toNat := rfl
  rw [h0, idx_set_other _ 0 n 0 (by omega)]
  exact idx_replicate _ _ _ (by omega)

theorem initTable_inv (sizes : List Int) (maxTarget : Int) (hm : 0 ≤ maxTarget) :
    TableInv sizes maxTarget 0 [] (initTable maxTarget) := by
  constructor
  · simp [initTable]
  · simp [initTable]
  · unfold initTable
    simp only
    have h0 : (0 : Nat) = (0 : Int).toNat := rfl
    rw [h0]
    apply idx_set_self
    simp
    omega
  · intro n hn hnm
    by_cases h0 : n = 0
    · subst h0
      have : idx (initTable maxTarget).dp 0 = 0 := by
        unfold initTable
        simp only
        have h0 : (0 : Nat) = (0 : Int).toNat := rfl
        rw [h0]
        apply idx_set_self
        simp
        omega
      omega
    · rw [initTable_idx_dp maxTarget n (by omega) hnm]
      decide
  · intro n hn hnm
    by_cases h0 : n = 0
    · subst h0
      have : idx (initTable maxTarget).dp 0 = 0 := by
        unfold initTable
        simp only
        have h0 : (0 : Nat) = (0 : Int).toNat := rfl
        rw [h0]
        apply idx_set_self
        simp
        omega
      rw [this]
      decide
    · rw [initTable_idx_dp maxTarget n (by omega) hnm]
  · intro n hn hnm hne
    exact absurd (initTable_idx_dp maxTarget n hn hnm) hne
  · intro i p hi hik
    omega
  · intro p hp
    simp at hp

theorem buildPrefix_inv (sizes : List Int) (hpos : ∀ p ∈ sizes, 0 < p) (maxTarget : Int)
    (hm : 0 ≤ maxTarget) (k : Nat) :
    TableInv sizes maxTarget k []
      ((List.range k).foldl (buildStep sizes maxTarget) (initTable maxTarget)) := by
  induction k with
  | zero => simpa using initTable_inv sizes maxTarget hm
  | succ k ih =>
    rw [List.range_succ, List.foldl_append]
    have h := buildStep_inv sizes hpos maxTarget k _ ih
    simpa using h

theorem buildTable_inv (sizes : List Int) (hpos : ∀ p ∈ sizes, 0 < p) (maxTarget : Int)
    (hm : 0 ≤ maxTarget) :
    TableInv sizes maxTarget (maxTarget + 1) [] (buildTable sizes maxTarget) := by
  have h := buildPrefix_inv sizes hpos maxTarget hm (maxTarget + 1).toNat
  have hc : (((maxTarget + 1).toNat : Nat) : Int) = maxTarget + 1 := by omega
  rw [hc] at h
  exact h

/-! ## What the finished table says -/

theorem packs_sum_nonneg (sizes : List Int) (hpos : ∀ p ∈ sizes, 0 < p) (l : List Int)
    (hl : PacksOf sizes l) : 0 ≤ l.sum := by
  induction l with
  | nil => simp
  | cons a rest ih =>
    have ha := hpos a (hl a (List.mem_cons_self _ _))
    have hr := ih (fun x hx => hl x (List.mem_cons_of_mem _ hx))
    simp only [List.sum_cons]
    omega

theorem table_complete (sizes : List Int) (hpos : ∀ p ∈ sizes, 0 < p) (maxTarget : Int)
    (t : Table) (h : TableInv sizes maxTarget (maxTarget + 1) [] t) (l : List Int) :
    PacksOf sizes l → l.sum ≤ maxTarget → (l.length : Int) < impossible →
      idx t.dp l.sum ≤ l.length := by
  induction l with
  | nil =>
    intro _ _ _
    simp [h.dp_zero]
  | cons a rest ih =>
    intro hl hsum hlen
    have hmem : a ∈ sizes := hl a (List.mem_cons_self _ _)
    have ha := hpos a hmem
    have hrest : PacksOf sizes rest := fun x hx => hl x (List.mem_cons_of_mem _ hx)
    have hr0 := packs_sum_nonneg sizes hpos rest hrest
    simp only [List.sum_cons, List.length_cons] at hsum hlen ⊢
    have hih := ih hrest (by omega) (by push_cast at hlen; omega)
    have hne : idx t.dp rest.sum ≠ impossible := by
      push_cast at hlen
      omega
    have hc := h.closed rest.sum a hr0 (by omega) hmem (by omega) hne
    have hcomm : a + rest.sum = rest.sum + a := by omega
    rw [hcomm]
    push_cast
    omega

theorem table_sound_aux (sizes : List Int) (hpos : ∀ p ∈ sizes, 0 < p) (maxTarget : Int)
    (t : Table) (h : TableInv sizes maxTarget (maxTarget + 1) [] t) (m : Nat) :
    ∀ n : Int, 0 ≤ n → n ≤ maxTarget → n.toNat ≤ m → idx t.dp n ≠ impossible →
      ∃ l : List Int, PacksOf sizes l ∧ l.sum = n ∧ (l.length : Int) = idx t.dp n := by
  induction m with
  | zero =>
    intro n hn hnm hm _
    have h0 : n = 0 := by omega
    subst h0
    exact ⟨[], fun x hx => by simp at hx, rfl, by simp [h.dp_zero]⟩
  | succ m ih =>
    intro n hn hnm hm hne
    by_cases h0 : n = 0
    · subst h0
      exact ⟨[], fun x hx => by simp at hx, rfl, by simp [h.dp_zero]⟩
    · obtain ⟨h1, h2, h3, h4, h5⟩ := h.chain n (by omega) hnm hne
      have hpp : 0 < idx t.parent n := hpos _ h1
      obtain ⟨l, hl1, hl2, hl3⟩ := ih (n - idx t.parent n) h3 (by omega) (by omega) h4
      refine ⟨idx t.parent n :: l, ?_, ?_, ?_⟩
      · intro x hx
        rcases List.mem_cons.1 hx with rfl | hx
        · exact h1
        · exact hl1 x hx
      · simp only [List.sum_cons, hl2]
        omega
      · simp only [List.length_cons]
        push_cast
        omega

theorem table_sound (sizes : List Int) (hpos : ∀ p ∈ sizes, 0 < p) (maxTarget : Int)
    (t : Table) (h : TableInv sizes maxTarget (maxTarget + 1) [] t) (n : Int)
    (hn : 0 ≤ n) (hnm : n ≤ maxTarget) (hne : idx t.dp n ≠ impossible) :
    ∃ l : List Int, PacksOf sizes l ∧ l.sum = n ∧ (l.length : Int) = idx t.dp n :=
  table_sound_aux sizes hpos maxTarget t h n.toNat n hn hnm (le_refl _) hne

/-! ## The scan for the target -/

theorem findTarget_spec (dp : List Int) (n : Nat) :
    ∀ i : Int,
      (findTarget dp i n = -1 ∧ ∀ j, i ≤ j → j < i + n → idx dp j = impossible) ∨
      (i ≤ findTarget dp i n ∧ findTarget dp i n < i + n ∧
        idx dp (findTarget dp i n) ≠ impossible ∧
        ∀ j, i ≤ j → j < findTarget dp i n → idx dp j = impossible) := by
  induction n with
  | zero =>
    intro i
    left
    refine ⟨rfl, ?_⟩
    intro j h1 h2
    simp at h2
    omega
  | succ n ih =>
    intro i
    by_cases hi : idx dp i = impossible
    · have hstep : findTarget dp i (n + 1) = findTarget dp (i + 1) n := by
        simp [findTarget, hi]
      rw [hstep]
      rcases ih (i + 1) with ⟨h1, h2⟩ | ⟨h1, h2, h3, h4⟩
      · left
        refine ⟨h1, ?_⟩
        intro j hj1 hj2
        by_cases hji : j = i
        · rw [hji]
          exact hi
        · apply h2 j (by omega)
          push_cast at hj2
          omega
      · right
        refine ⟨by omega, by push_cast; omega, h3, ?_⟩
        intro j hj1 hj2
        by_cases hji : j = i
        · rw [hji]
          exact hi
        · exact h4 j (by omega) hj2
    · have hstep : findTarget dp i (n + 1) = i := by
        simp [findTarget, hi]
      rw [hstep]
      right
      refine ⟨le_refl _, by push_cast; omega, hi, ?_⟩
      intro j hj1 hj2
      omega

/-! ## The backtracking loop -/

theorem backtrack_spec (sizes : List Int) (hpos : ∀ p ∈ sizes, 0 < p) (maxTarget : Int)
    (t : Table) (h : TableInv sizes maxTarget (maxTarget + 1) [] t) (fuel : Nat) :
    ∀ (current : Int) (result : Plan), 0 ≤ current → current ≤ maxTarget →
      idx t.dp current ≠ impossible → current.toNat ≤ fuel → PlanOver sizes result →
      ∃ plan, backtrack t.parent fuel current result = some plan ∧
        planItems plan = planItems result + current ∧
        planPacks plan = planPacks result + idx t.dp current ∧
        PlanOver sizes plan := by
  induction fuel with
  | zero =>
    intro current result h0 _ _ hf hres
    have hc : current = 0 := by omega
    subst hc
    refine ⟨result, by simp [backtrack], by simp, by simp [h.dp_zero], hres⟩
  | succ fuel ih =>
    intro current result h0 hm hne hf hres
    by_cases hc : current = 0
    · subst hc
      refine ⟨result, by simp [backtrack], by simp, by simp [h.dp_zero], hres⟩
    · have hcpos : current > 0 := by omega
      obtain ⟨h1, h2, h3, h4, h5⟩ := h.chain current (by omega) hm hne
      have hpp : 0 < idx t.parent current := hpos _ h1
      have hne1 : idx t.parent current ≠ -1 := by omega
      obtain ⟨plan, hp1, hp2, hp3, hp4⟩ :=
        ih (current - idx t.parent current) (incr result (idx t.parent current)) h3
          (by omega) h4 (by omega) (planOver_incr sizes result _ hres h1)
      refine ⟨plan, ?_, ?_, ?_, hp4⟩
      · simp only [backtrack, hcpos, if_true, hne1, if_false]
        exact hp1
      · rw [hp2, planItems_incr]
        omega
      · rw [hp3, planPacks_incr]
        omega

/-! ## The method `Calculate` on a valid calculator -/

theorem valid_head (c : Calculator) (hv : ValidCalc c) :
    c.packSizes.headD 0 ∈ c.packSizes ∧ 0 < c.packSizes.headD 0 := by
  obtain ⟨hne, hpos⟩ := hv
  cases hc : c.packSizes with
  | nil => exact absurd hc hne
  | cons a rest =>
    have ha : a ∈ c.packSizes := by
      rw [hc]
      exact List.mem_cons_self _ _
    simp only [List.headD_cons]
    exact ⟨List.mem_cons_self _ _, hpos a ha⟩

theorem getLastD_mem (l : List Int) (hne : l ≠ []) : l.getLastD 0 ∈ l := by
  induction l with
  | nil => exact absurd rfl hne
  | cons a rest ih =>
    cases rest with
    | nil => simp [List.getLastD]
    | cons b rest2 =>
      have h := ih (by simp)
      simp only [List.getLastD_cons] at h ⊢
      exact List.mem_cons_of_mem _ h

theorem valid_last (c : Calculator) (hv : ValidCalc c) :
    c.packSizes.getLastD 0 ∈ c.packSizes ∧ 0 < c.packSizes.getLastD 0 := by
  have h := getLastD_mem c.packSizes hv.1
  exact ⟨h, hv.2 _ h⟩

theorem mem_sortDescending (sizes : List Int) (x : Int) :
    x ∈ sortDescending sizes ↔ x ∈ sizes :=
  (List.perm_insertionSort _ sizes).mem_iff

theorem valid_of_New (packSizes : List Int) (c : Calculator) (h : New packSizes = .ok c) :
    ValidCalc c ∧ ∀ x, x ∈ c.packSizes ↔ x ∈ packSizes := by
  obtain ⟨hne, hpos, hc⟩ := (New_ok_iff packSizes c).1 h
  have hmem : ∀ x, x ∈ c.packSizes ↔ x ∈ packSizes := by
    intro x
    rw [hc]
    exact mem_sortDescending packSizes x
  refine ⟨⟨?_, ?_⟩, hmem⟩
  · intro hnil
    cases hp : packSizes with
    | nil => exact hne hp
    | cons a rest =>
      have ha : a ∈ c.packSizes := (hmem a).2 (by rw [hp]; exact List.mem_cons_self _ _)
      rw [hnil] at ha
      simp at ha
  · intro p hp
    exact hpos p ((hmem p).1 hp)

theorem maxTargetOf_eq (c : Calculator) (hv : ValidCalc c) (amount : Int) (ha : 0 < amount)
    (hfit : Allocates c amount) :
    maxTargetOf c amount = amount + c.packSizes.headD 0 := by
  have := (valid_head c hv).2
  unfold Allocates maxSliceLen at hfit
  unfold maxTargetOf wrapInt
  omega

theorem maxTargetOf_bounds (c : Calculator) (hv : ValidCalc c) (amount : Int)
    (ha : 0 < amount) (hfit : Allocates c amount) : amount < maxTargetOf c amount := by
  have := (valid_head c hv).2
  rw [maxTargetOf_eq c hv amount ha hfit]
  omega

theorem make_of_allocates (c : Calculator) (hv : ValidCalc c) (amount : Int) (ha : 0 < amount)
    (hfit : Allocates c amount) :
    ¬ (wrapInt (wrapInt (amount + c.packSizes.headD 0) + 1) < 0 ∨
      maxSliceLen < wrapInt (wrapInt (amount + c.packSizes.headD 0) + 1)) := by
  have := (valid_head c hv).2
  unfold Allocates at hfit
  unfold maxSliceLen at hfit ⊢
  unfold wrapInt
  omega

theorem make_panics (c : Calculator) (hv : ValidCalc c) (amount : Int) (ha : 0 < amount)
    (hamount : IsInt amount) (hlargest : IsInt (c.packSizes.headD 0))
    (hno : ¬ Allocates c amount) :
    wrapInt (wrapInt (amount + c.packSizes.headD 0) + 1) < 0 ∨
      maxSliceLen < wrapInt (wrapInt (amount + c.packSizes.headD 0) + 1) := by
  have := (valid_head c hv).2
  unfold Allocates at hno
  unfold IsInt at hamount hlargest
  unfold maxSliceLen at hno ⊢
  unfold wrapInt
  omega

theorem tableOf_inv (c : Calculator) (hv : ValidCalc c) (amount : Int) (ha : 0 < amount)
    (hfit : Allocates c amount) :
    TableInv c.packSizes (maxTargetOf c amount) (maxTargetOf c amount + 1) []
      (tableOf c amount) := by
  have hm := maxTargetOf_bounds c hv amount ha hfit
  exact buildTable_inv c.packSizes hv.2 (maxTargetOf c amount) (by omega)

theorem targetOf_eq (c : Calculator) (amount : Int) (hfit : Allocates c amount) :
    targetOf c amount =
      findTarget (tableOf c amount).dp amount (maxTargetOf c amount - amount + 1).toNat := by
  unfold targetOf
  rw [if_pos hfit]

theorem allocates_of_target (c : Calculator) (amount : Int) (ht : targetOf c amount ≠ -1) :
    Allocates c amount := by
  by_contra hno
  apply ht
  unfold targetOf
  rw [if_neg hno]

theorem Calculate_eq (c : Calculator) (hv : ValidCalc c) (amount : Int) (ha : 0 < amount)
    (hfit : Allocates c amount) :
    Calculate c amount =
      if targetOf c amount = -1 then some (.ok (fallbackPlan c amount))
      else (backtrack (tableOf c amount).parent (targetOf c amount).toNat
        (targetOf c amount) []).map .ok := by
  have h1 : ¬ amount ≤ 0 := by omega
  have h2 : ¬ c.packSizes.length = 0 := by
    intro h0
    exact hv.1 (List.length_eq_zero.1 h0)
  have h3 := make_of_allocates c hv amount ha hfit
  rw [targetOf_eq c amount hfit]
  unfold Calculate
  rw [if_neg h1, if_neg h2]
  simp only [if_neg h3]
  rfl

theorem Calculate_panics (c : Calculator) (hv : ValidCalc c) (amount : Int) (ha : 0 < amount)
    (hamount : IsInt amount) (hlargest : IsInt (c.packSizes.headD 0))
    (hno : ¬ Allocates c amount) :
    Calculate c amount = none := by
  have h1 : ¬ amount ≤ 0 := by omega
  have h2 : ¬ c.packSizes.length = 0 := by
    intro h0
    exact hv.1 (List.length_eq_zero.1 h0)
  have h3 := make_panics c hv amount ha hamount hlargest hno
  unfold Calculate
  rw [if_neg h1, if_neg h2]
  simp only [if_pos h3]

theorem allocates_of_return (c : Calculator) (hv : ValidCalc c) (amount : Int)
    (ha : 0 < amount) (hamount : IsInt amount) (hlargest : IsInt (c.packSizes.headD 0))
    (r : Except CalcError Plan) (h : Calculate c amount = some r) : Allocates c amount := by
  by_contra hno
  rw [Calculate_panics c hv amount ha hamount hlargest hno] at h
  cases h

theorem Calculate_no_error (c : Calculator) (hv : ValidCalc c) (amount : Int)
    (ha : 0 < amount) (e : CalcError) : Calculate c amount ≠ some (.error e) := by
  have h1 : ¬ amount ≤ 0 := by omega
  have h2 : ¬ c.packSizes.length = 0 := by
    intro h0
    exact hv.1 (List.length_eq_zero.1 h0)
  intro h
  unfold Calculate at h
  rw [if_neg h1, if_neg h2] at h
  simp only [] at h
  split at h
  · cases h
  · split at h
    · cases h
    · cases hb : backtrack (buildTable c.packSizes (wrapInt (amount + c.packSizes.headD 0))).parent
          (findTarget (buildTable c.packSizes (wrapInt (amount + c.packSizes.headD 0))).dp
            amount (wrapInt (amount + c.packSizes.headD 0) - amount + 1).toNat).toNat
          (findTarget (buildTable c.packSizes (wrapInt (amount + c.packSizes.headD 0))).dp
            amount (wrapInt (amount + c.packSizes.headD 0) - amount + 1).toNat) [] with
      | none =>
        rw [hb] at h
        cases h
      | some plan =>
        rw [hb] at h
        cases h

theorem targetOf_spec (c : Calculator) (hv : ValidCalc c) (amount : Int) (ha : 0 < amount)
    (hfit : Allocates c amount) :
    (targetOf c amount = -1 ∧
      ∀ j, amount ≤ j → j ≤ maxTargetOf c amount → idx (tableOf c amount).dp j = impossible) ∨
    (amount ≤ targetOf c amount ∧ targetOf c amount ≤ maxTargetOf c amount ∧
      idx (tableOf c amount).dp (targetOf c amount) ≠ impossible ∧
      ∀ j, amount ≤ j → j < targetOf c amount → idx (tableOf c amount).dp j = impossible) := by
  have hm := maxTargetOf_bounds c hv amount ha hfit
  have hn : (((maxTargetOf c amount - amount + 1).toNat : Nat) : Int)
      = maxTargetOf c amount - amount + 1 := by omega
  rw [targetOf_eq c amount hfit]
  rcases findTarget_spec (tableOf c amount).dp (maxTargetOf c amount - amount + 1).toNat amount
    with ⟨h1, h2⟩ | ⟨h1, h2, h3, h4⟩
  · left
    refine ⟨h1, ?_⟩
    intro j hj1 hj2
    exact h2 j hj1 (by rw [hn]; omega)
  · right
    rw [hn] at h2
    exact ⟨h1, by omega, h3, h4⟩

theorem Calculate_fallback (c : Calculator) (hv : ValidCalc c) (amount : Int) (ha : 0 < amount)
    (hfit : Allocates c amount)
    (ht : targetOf c amount = -1) :
    Calculate c amount = some (.ok (fallbackPlan c amount)) := by
  rw [Calculate_eq c hv amount ha hfit, if_pos ht]

theorem Calculate_normal (c : Calculator) (hv : ValidCalc c) (amount : Int) (ha : 0 < amount)
    (ht : targetOf c amount ≠ -1) :
    ∃ plan, Calculate c amount = some (.ok plan) ∧
      planItems plan = targetOf c amount ∧
      planPacks plan = idx (tableOf c amount).dp (targetOf c amount) ∧
      PlanOver c.packSizes plan := by
  have hfit := allocates_of_target c amount ht
  rcases targetOf_spec c hv amount ha hfit with ⟨h1, _⟩ | ⟨h1, h2, h3, _⟩
  · exact absurd h1 ht
  · have hinv := tableOf_inv c hv amount ha hfit
    obtain ⟨plan, hp1, hp2, hp3, hp4⟩ :=
      backtrack_spec c.packSizes hv.2 (maxTargetOf c amount) (tableOf c amount) hinv
        (targetOf c amount).toNat (targetOf c amount) [] (by omega) h2 h3 (le_refl _)
        (fun e he => by simp at he)
    refine ⟨plan, ?_, ?_, ?_, hp4⟩
    · rw [Calculate_eq c hv amount ha hfit, if_neg ht, hp1]
      rfl
    · rw [hp2]
      simp [planItems]
    · rw [hp3]
      simp [planPacks]

theorem fallbackPlan_items (c : Calculator) (amount : Int) :
    planItems (fallbackPlan c amount) =
      c.packSizes.getLastD 0 *
        (amount + c.packSizes.getLastD 0 - 1).tdiv (c.packSizes.getLastD 0) := by
  simp [fallbackPlan, planItems]

theorem fallbackPlan_packs (c : Calculator) (amount : Int) :
    planPacks (fallbackPlan c amount) =
      (amount + c.packSizes.getLastD 0 - 1).tdiv (c.packSizes.getLastD 0) := by
  simp [fallbackPlan, planPacks]

/-- For positive operands the quotient `(a + s - 1) / s` of Go is the ceiling of `a / s`. -/
theorem ceil_div_bounds (a s : Int) (ha : 0 < a) (hs : 0 < s) :
    a ≤ s * (a + s - 1).tdiv s ∧ s * (a + s - 1).tdiv s ≤ a + s - 1 ∧
      1 ≤ (a + s - 1).tdiv s := by
  have hq : (a + s - 1).tdiv s = (a + s - 1) / s :=
    Int.tdiv_eq_ediv (by omega) (by omega)
  rw [hq]
  have h1 := Int.ediv_add_emod (a + s - 1) s
  have h2 := Int.emod_nonneg (a + s - 1) (by omega : s ≠ 0)
  have h3 := Int.emod_lt_of_pos (a + s - 1) hs
  refine ⟨by omega, by omega, ?_⟩
  by_contra hcon
  have hle : (a + s - 1) / s ≤ 0 := by omega
  have hmul : s * ((a + s - 1) / s) ≤ 0 :=
    Int.mul_nonpos_of_nonneg_of_nonpos (by omega) hle
  omega

theorem CalculateWithDetails_ok (c : Calculator) (amount : Int) (plan : Plan)
    (h : Calculate c amount = some (.ok plan)) :
    CalculateWithDetails c amount =
      some (.ok { Packs := plan, TotalItems := planItems plan, TotalPacks := planPacks plan,
                  OrderAmount := amount }) := by
  unfold CalculateWithDetails
  rw [h]
  simp [totals_eq]

theorem Calculate_result (c : Calculator) (hv : ValidCalc c) (amount : Int) (ha : 0 < amount)
    (hfit : Allocates c amount) :
    ∃ plan, Calculate c amount = some (.ok plan) ∧ PlanOver c.packSizes plan ∧
      amount ≤ planItems plan := by
  by_cases ht : targetOf c amount = -1
  · refine ⟨fallbackPlan c amount, Calculate_fallback c hv amount ha hfit ht, ?_, ?_⟩
    · obtain ⟨hmem, hpos⟩ := valid_last c hv
      have hb := ceil_div_bounds amount _ ha hpos
      intro e he
      rw [fallbackPlan, List.mem_singleton] at he
      subst he
      exact ⟨hmem, hb.2.2⟩
    · obtain ⟨_, hpos⟩ := valid_last c hv
      rw [fallbackPlan_items]
      exact (ceil_div_bounds amount _ ha hpos).1
  · obtain ⟨plan, h1, h2, _, h4⟩ := Calculate_normal c hv amount ha ht
    refine ⟨plan, h1, h4, ?_⟩
    rcases targetOf_spec c hv amount ha hfit with ⟨h, _⟩ | ⟨h, _⟩
    · exact absurd h ht
    · omega

/-! ## Reachable totals and table entries -/

theorem reach_of_dp (c : Calculator) (hv : ValidCalc c) (amount : Int) (ha : 0 < amount)
    (hfit : Allocates c amount)
    (j : Int) (hj0 : 0 ≤ j) (hjm : j ≤ maxTargetOf c amount)
    (hne : idx (tableOf c amount).dp j ≠ impossible) :
    ∃ l : List Int, PacksOf c.packSizes l ∧ l.sum = j ∧
      (l.length : Int) = idx (tableOf c amount).dp j ∧ (l.length : Int) < impossible := by
  have hinv := tableOf_inv c hv amount ha hfit
  obtain ⟨l, h1, h2, h3⟩ := table_sound c.packSizes hv.2 _ _ hinv j hj0 hjm hne
  have hle := hinv.dp_le j hj0 hjm
  exact ⟨l, h1, h2, h3, by omega⟩

theorem dp_of_reach (c : Calculator) (hv : ValidCalc c) (amount : Int) (ha : 0 < amount)
    (hfit : Allocates c amount)
    (l : List Int) (hl : PacksOf c.packSizes l) (hsum : l.sum ≤ maxTargetOf c amount)
    (hlen : (l.length : Int) < impossible) :
    idx (tableOf c amount).dp l.sum ≤ l.length ∧
      idx (tableOf c amount).dp l.sum ≠ impossible := by
  have hinv := tableOf_inv c hv amount ha hfit
  have h := table_complete c.packSizes hv.2 _ _ hinv l hl hsum hlen
  exact ⟨h, by omega⟩

theorem sum_le_mul_length (l : List Int) (b : Int) (h : ∀ x ∈ l, x ≤ b) :
    l.sum ≤ b * l.length := by
  induction l with
  | nil => simp
  | cons a rest ih =>
    have ha := h a (List.mem_cons_self _ _)
    have hr := ih (fun x hx => h x (List.mem_cons_of_mem _ hx))
    simp only [List.sum_cons, List.length_cons]
    push_cast
    rw [mul_add, mul_one]
    omega

theorem packs_three_one (l : List Int) (h : PacksOf [3, 1] l) :
    ∃ a b : Nat, l.sum = 3 * (a : Int) + b ∧ l.length = a + b := by
  induction l with
  | nil => exact ⟨0, 0, by simp, by simp⟩
  | cons x rest ih =>
    obtain ⟨a, b, h1, h2⟩ := ih (fun y hy => h y (List.mem_cons_of_mem _ hy))
    have hx := h x (List.mem_cons_self _ _)
    simp at hx
    rcases hx with hx | hx
    · refine ⟨a + 1, b, ?_, ?_⟩
      · simp only [List.sum_cons, hx, h1]
        push_cast
        ring
      · simp only [List.length_cons, h2]
        omega
    · refine ⟨a, b + 1, ?_, ?_⟩
      · simp only [List.sum_cons, hx, h1]
        push_cast
        ring
      · simp only [List.length_cons, h2]
        omega

theorem validCalc_one : ValidCalc { packSizes := [1] } :=
  ⟨by simp, by simp⟩

theorem validCalc_two_one : ValidCalc { packSizes := [2, 1] } :=
  ⟨by simp, by simp⟩

theorem validCalc_three_one : ValidCalc { packSizes := [3, 1] } :=
  ⟨by simp, by simp⟩

/-- With the single size 1 and `amount = math.MaxInt32` the scan meets only sentinel
entries. -/
theorem target_one : targetOf { packSizes := [1] } 2147483647 = -1 := by
  rcases targetOf_spec _ validCalc_one 2147483647 (by decide) (by decide) with
    ⟨h, _⟩ | ⟨h1, h2, h3, _⟩
  · exact h
  · exfalso
    obtain ⟨l, hl1, hl2, _, hl4⟩ :=
      reach_of_dp _ validCalc_one 2147483647 (by decide) (by decide) _ (by omega) h2 h3
    have hb := sum_le_mul_length l 1 (fun x hx => by
      have := hl1 x hx
      simp at this
      omega)
    unfold impossible at hl4
    omega

/-- With the sizes 2 and 1 and `amount = 2 * math.MaxInt32 - 1` the scan meets only
sentinel entries. -/
theorem target_two_one : targetOf { packSizes := [2, 1] } 4294967293 = -1 := by
  rcases targetOf_spec _ validCalc_two_one 4294967293 (by decide) (by decide) with
    ⟨h, _⟩ | ⟨h1, h2, h3, _⟩
  · exact h
  · exfalso
    obtain ⟨l, hl1, hl2, _, hl4⟩ :=
      reach_of_dp _ validCalc_two_one 4294967293 (by decide) (by decide) _ (by omega) h2 h3
    have hb := sum_le_mul_length l 2 (fun x hx => by
      have := hl1 x hx
      simp at this
      omega)
    unfold impossible at hl4
    omega

/-- With the sizes 3 and 1 and `amount = 3 * (math.MaxInt32 - 1) - 1` the scan skips
`amount` and stops at `amount + 1`. -/
theorem target_three_one : targetOf { packSizes := [3, 1] } 6442450937 = 6442450938 := by
  have hmax : maxTargetOf { packSizes := [3, 1] } 6442450937 = 6442450940 := by
    decide
  have hl : PacksOf [3, 1] (List.replicate 2147483646 (3 : Int)) := by
    intro x hx
    rw [List.eq_of_mem_replicate hx]
    simp
  have hsum : (List.replicate 2147483646 (3 : Int)).sum = 6442450938 := by
    rw [List.sum_replicate]
    simp
  have htop := dp_of_reach _ validCalc_three_one 6442450937 (by decide) (by decide)
    (List.replicate 2147483646 (3 : Int)) hl (by rw [hsum, hmax]; decide)
    (by rw [List.length_replicate]; decide)
  rw [hsum] at htop
  have hamount : idx (tableOf { packSizes := [3, 1] } 6442450937).dp 6442450937
      = impossible := by
    by_contra hne
    obtain ⟨l, hl1, hl2, _, hl4⟩ :=
      reach_of_dp _ validCalc_three_one 6442450937 (by decide) (by decide) 6442450937 (by decide)
        (by rw [hmax]; decide) hne
    obtain ⟨a, b, hab1, hab2⟩ := packs_three_one l hl1
    unfold impossible at hl4
    omega
  rcases targetOf_spec _ validCalc_three_one 6442450937 (by decide) (by decide) with
    ⟨_, h⟩ | ⟨h1, h2, h3, h4⟩
  · exact absurd (h 6442450938 (by decide) (by rw [hmax]; decide)) htop.2
  · by_contra hne
    by_cases hlt : targetOf { packSizes := [3, 1] } 6442450937 < 6442450938
    · have heq : targetOf { packSizes := [3, 1] } 6442450937 = 6442450937 := by omega
      rw [heq] at h3
      exact h3 hamount
    · exact htop.2 (h4 6442450938 (by decide) (by omega))

/-! ## The keys of the returned map -/

theorem incr_keys_nodup (plan : Plan) (pack : Int) (h : (plan.map Prod.fst).Nodup) :
    ((incr plan pack).map Prod.fst).Nodup ∧
      ∀ k, k ∈ (incr plan pack).map Prod.fst ↔ k = pack ∨ k ∈ plan.map Prod.fst := by
  induction plan with
  | nil => simp [incr]
  | cons e rest ih =>
    obtain ⟨k0, v0⟩ := e
    simp only [List.map_cons, List.nodup_cons] at h
    obtain ⟨hnot, hrest⟩ := h
    obtain ⟨ih1, ih2⟩ := ih hrest
    by_cases hk : k0 = pack
    · subst hk
      simp only [incr, if_true, List.map_cons, List.nodup_cons]
      refine ⟨⟨hnot, hrest⟩, ?_⟩
      intro k
      simp
    · simp only [incr, hk, if_false, List.map_cons, List.nodup_cons]
      refine ⟨⟨?_, ih1⟩, ?_⟩
      · intro hmem
        rcases (ih2 k0).1 hmem with h1 | h1
        · exact hk h1
        · exact hnot h1
      · intro k
        simp only [List.mem_cons, ih2 k]
        tauto

theorem backtrack_nodup (parent : List Int) (fuel : Nat) :
    ∀ (current : Int) (result plan : Plan), backtrack parent fuel current result = some plan →
      (result.map Prod.fst).Nodup → (plan.map Prod.fst).Nodup := by
  induction fuel with
  | zero =>
    intro current result plan h hnd
    by_cases hc : current > 0
    · simp [backtrack, hc] at h
    · simp [backtrack, hc] at h
      rw [← h]
      exact hnd
  | succ fuel ih =>
    intro current result plan h hnd
    by_cases hc : current > 0
    · by_cases hp : idx parent current = -1
      · simp [backtrack, hc, hp] at h
        rw [← h]
        exact hnd
      · simp only [backtrack, hc, if_true, hp, if_false] at h
        exact ih _ _ plan h (incr_keys_nodup result _ hnd).1
    · simp [backtrack, hc] at h
      rw [← h]
      exact hnd

theorem Calculate_nodup (c : Calculator) (hv : ValidCalc c) (amount : Int) (ha : 0 < amount)
    (hfit : Allocates c amount) (plan : Plan) (h : Calculate c amount = some (.ok plan)) :
    (plan.map Prod.fst).Nodup := by
  rw [Calculate_eq c hv amount ha hfit] at h
  by_cases ht : targetOf c amount = -1
  · rw [if_pos ht] at h
    simp only [Option.some.injEq, Except.ok.injEq] at h
    rw [← h]
    simp [fallbackPlan]
  · rw [if_neg ht] at h
    cases hb : backtrack (tableOf c amount).parent (targetOf c amount).toNat
        (targetOf c amount) [] with
    | none =>
      rw [hb] at h
      simp at h
    | some plan2 =>
      rw [hb] at h
      simp only [Option.map_some', Option.some.injEq, Except.ok.injEq] at h
      rw [← h]
      exact backtrack_nodup _ _ _ _ _ hb (by simp)

theorem single_key_plan (p : Int) (plan : Plan) (hover : PlanOver [p] plan)
    (hnd : (plan.map Prod.fst).Nodup) (hne : plan ≠ []) :
    ∃ v, plan = [(p, v)] ∧ 1 ≤ v := by
  cases plan with
  | nil => exact absurd rfl hne
  | cons e rest =>
    obtain ⟨k, v⟩ := e
    have hk := hover (k, v) (List.mem_cons_self _ _)
    simp at hk
    obtain ⟨hk1, hk2⟩ := hk
    subst hk1
    cases rest with
    | nil => exact ⟨v, rfl, hk2⟩
    | cons e2 rest2 =>
      obtain ⟨k2, v2⟩ := e2
      have hk' := hover (k2, v2) (List.mem_cons_of_mem _ (List.mem_cons_self _ _))
      simp at hk'
      simp only [List.map_cons, List.nodup_cons, List.mem_cons] at hnd
      exact absurd (Or.inl hk'.1.symm) hnd.1

theorem ceil_div_unique (a p v : Int) (hp : 0 < p) (h1 : a ≤ p * v) (h2 : p * (v - 1) < a) :
    (a + p - 1) / p = v := by
  have e1 := Int.ediv_add_emod (a + p - 1) p
  have e2 := Int.emod_nonneg (a + p - 1) (by omega : p ≠ 0)
  have e3 := Int.emod_lt_of_pos (a + p - 1) hp
  have hexp : p * (v - 1) = p * v - p := by ring
  by_contra hne
  rcases lt_or_gt_of_ne hne with hlt | hgt
  · have hle : (a + p - 1) / p ≤ v - 1 := by omega
    have hmul := Int.mul_le_mul_of_nonneg_left hle (by omega : 0 ≤ p)
    omega
  · have hle : v + 1 ≤ (a + p - 1) / p := by omega
    have hmul := Int.mul_le_mul_of_nonneg_left hle (by omega : 0 ≤ p)
    have hexp2 : p * (v + 1) = p * v + p := by ring
    omega

/-! ## Optimality while every pack count stays below the sentinel

The theorems of this section hold in a run that got its tables with `maxTarget` below
`impossible`, that is, whenever `amount + largestPack` is below `impossible`: then no
list of packs with a total inside the table has `impossible` or more elements, and the
table distinguishes reachable totals from unreachable ones. -/

theorem length_le_sum (sizes : List Int) (hpos : ∀ p ∈ sizes, 0 < p) (l : List Int)
    (hl : PacksOf sizes l) : (l.length : Int) ≤ l.sum := by
  induction l with
  | nil => simp
  | cons a rest ih =>
    have ha := hpos a (hl a (List.mem_cons_self _ _))
    have hr := ih (fun x hx => hl x (List.mem_cons_of_mem _ hx))
    simp only [List.sum_cons, List.length_cons]
    push_cast
    omega

theorem sum_replicate_int (k p : Int) (hk : 0 ≤ k) :
    (List.replicate k.toNat p).sum = p * k := by
  rw [List.sum_replicate]
  simp only [nsmul_eq_mul]
  have hc : ((k.toNat : Nat) : Int) = k := by omega
  rw [hc]
  ring

theorem packsOf_replicate (sizes : List Int) (p : Int) (hp : p ∈ sizes) (n : Nat) :
    PacksOf sizes (List.replicate n p) := by
  intro x hx
  rw [List.eq_of_mem_replicate hx]
  exact hp

/-- Repeating one pack size `s` covers the amount with a total inside the table. -/
theorem dp_at_multiple (c : Calculator) (hv : ValidCalc c) (amount : Int) (ha : 0 < amount)
    (hfit : Allocates c amount) (hsmall : maxTargetOf c amount < impossible) (s : Int)
    (hs : s ∈ c.packSizes)
    (hle : s ≤ c.packSizes.headD 0) :
    idx (tableOf c amount).dp (s * (amount + s - 1).tdiv s) ≠ impossible := by
  have hs0 := hv.2 s hs
  obtain ⟨b1, b2, b3⟩ := ceil_div_bounds amount s ha hs0
  have hl := packsOf_replicate c.packSizes s hs ((amount + s - 1).tdiv s).toNat
  have hsum := sum_replicate_int ((amount + s - 1).tdiv s) s (by omega)
  have hmax : s * (amount + s - 1).tdiv s ≤ maxTargetOf c amount := by
    rw [maxTargetOf_eq c hv amount ha hfit]
    omega
  have hlen := length_le_sum c.packSizes hv.2 _ hl
  have hd := dp_of_reach c hv amount ha hfit _ hl (by rw [hsum]; exact hmax) (by omega)
  rw [hsum] at hd
  exact hd.2

theorem target_found_of_small (c : Calculator) (hv : ValidCalc c) (amount : Int)
    (ha : 0 < amount) (hfit : Allocates c amount) (hsmall : maxTargetOf c amount < impossible) :
    targetOf c amount ≠ -1 := by
  intro ht
  obtain ⟨hmem, hpos⟩ := valid_head c hv
  obtain ⟨b1, b2, _⟩ := ceil_div_bounds amount _ ha hpos
  have hd := dp_at_multiple c hv amount ha hfit hsmall _ hmem (le_refl _)
  rcases targetOf_spec c hv amount ha hfit with ⟨_, h⟩ | ⟨h1, _⟩
  · apply hd
    apply h _ b1
    rw [maxTargetOf_eq c hv amount ha hfit]
    omega
  · omega

theorem optimal_of_small (c : Calculator) (hv : ValidCalc c) (amount : Int)
    (ha : 0 < amount) (hfit : Allocates c amount) (hsmall : maxTargetOf c amount < impossible) :
    ∃ plan, Calculate c amount = some (.ok plan) ∧ amount ≤ planItems plan ∧
      (∀ l, PacksOf c.packSizes l → amount ≤ l.sum → planItems plan ≤ l.sum) ∧
      (∀ l, PacksOf c.packSizes l → l.sum = planItems plan →
        planPacks plan ≤ (l.length : Int)) := by
  have ht := target_found_of_small c hv amount ha hfit hsmall
  obtain ⟨plan, h1, h2, h3, _⟩ := Calculate_normal c hv amount ha ht
  rcases targetOf_spec c hv amount ha hfit with ⟨h, _⟩ | ⟨t1, t2, t3, t4⟩
  · exact absurd h ht
  · refine ⟨plan, h1, by omega, ?_, ?_⟩
    · intro l hl hsum
      by_contra hcon
      have hlen := length_le_sum c.packSizes hv.2 l hl
      have hd := dp_of_reach c hv amount ha hfit l hl (by omega) (by omega)
      exact hd.2 (t4 _ hsum (by omega))
    · intro l hl hsum
      have hlen := length_le_sum c.packSizes hv.2 l hl
      have hd := dp_of_reach c hv amount ha hfit l hl (by omega) (by omega)
      rw [h3, ← h2, ← hsum]
      exact hd.1

theorem sortDescending_sorted (sizes : List Int) :
    (sortDescending sizes).Sorted (fun a b => b ≤ a) :=
  List.sorted_insertionSort (· ≥ ·) sizes

theorem sorted_last_le_head (l : List Int) (h : l.Sorted (fun a b => b ≤ a)) :
    l.getLastD 0 ≤ l.headD 0 := by
  cases l with
  | nil => simp
  | cons a rest =>
    cases rest with
    | nil => simp
    | cons b rest2 =>
      have hmem : (a :: b :: rest2).getLastD 0 ∈ b :: rest2 := by
        have := getLastD_mem (b :: rest2) (by simp)
        simpa using this
      have := List.rel_of_sorted_cons h _ hmem
      simpa using this

theorem overage_of_small (packSizes : List Int) (c : Calculator) (hnew : New packSizes = .ok c)
    (amount : Int) (ha : 0 < amount) (hfit : Allocates c amount)
    (hsmall : maxTargetOf c amount < impossible) :
    ∃ plan, Calculate c amount = some (.ok plan) ∧
      planItems plan ≤ amount + c.packSizes.getLastD 0 - 1 := by
  obtain ⟨hv, _⟩ := valid_of_New packSizes c hnew
  have hsorted : c.packSizes.Sorted (fun a b => b ≤ a) := by
    rw [((New_ok_iff packSizes c).1 hnew).2.2]
    exact sortDescending_sorted packSizes
  have hle := sorted_last_le_head c.packSizes hsorted
  obtain ⟨hmem, hpos⟩ := valid_last c hv
  obtain ⟨b1, b2, _⟩ := ceil_div_bounds amount _ ha hpos
  have hd := dp_at_multiple c hv amount ha hfit hsmall _ hmem hle
  have ht := target_found_of_small c hv amount ha hfit hsmall
  obtain ⟨plan, h1, h2, _, _⟩ := Calculate_normal c hv amount ha ht
  rcases targetOf_spec c hv amount ha hfit with ⟨h, _⟩ | ⟨t1, t2, t3, t4⟩
  · exact absurd h ht
  · refine ⟨plan, h1, ?_⟩
    by_contra hcon
    exact hd (t4 _ b1 (by omega))

/-! ## The view of the pack sizes -/

theorem sortDescending_perm (sizes : List Int) : (sortDescending sizes).Perm sizes :=
  List.perm_insertionSort _ sizes

theorem sortDescending_congr (s1 s2 : List Int) (h : s1.Perm s2) :
    sortDescending s1 = sortDescending s2 := by
  haveI : IsAntisymm Int (fun a b => b ≤ a) := ⟨fun a b h1 h2 => le_antisymm h2 h1⟩
  exact List.eq_of_perm_of_sorted
    (((sortDescending_perm s1).trans h).trans (sortDescending_perm s2).symm)
    (sortDescending_sorted s1) (sortDescending_sorted s2)

theorem SetPackSizes_of_valid (c : Calculator) (packSizes : List Int) (hne : packSizes ≠ [])
    (h : ∀ x ∈ packSizes, 0 < x) :
    SetPackSizes c packSizes = ({ packSizes := sortDescending packSizes }, none) := by
  have hlen : packSizes.length ≠ 0 := by
    intro h0
    exact hne (List.length_eq_zero.1 h0)
  simp [SetPackSizes, hlen, copySizes_ok packSizes h]

/-! ## The registry of pack sizes -/

theorem hasSize_iff (l : List Int) (size : Int) : hasSize l size = true ↔ size ∈ l := by
  induction l with
  | nil => simp [hasSize]
  | cons a rest ih =>
    by_cases h : a = size
    · simp [hasSize, h]
    · have h2 : ¬ size = a := fun e => h e.symm
      simp [hasSize, h, h2, ih]

theorem firstIndex_none (l : List Int) (size : Int) :
    firstIndex l size = none ↔ size ∉ l := by
  induction l with
  | nil => simp [firstIndex]
  | cons a rest ih =>
    by_cases h : a = size
    · simp [firstIndex, h]
    · have h2 : ¬ size = a := fun e => h e.symm
      simp [firstIndex, h, h2, ih]

theorem firstIndex_some (l : List Int) (size : Int) (i : Nat)
    (h : firstIndex l size = some i) :
    ∃ before after, l = before ++ size :: after ∧ size ∉ before ∧
      l.take i ++ l.drop (i + 1) = before ++ after := by
  induction l generalizing i with
  | nil => simp [firstIndex] at h
  | cons a rest ih =>
    by_cases ha : a = size
    · subst ha
      simp [firstIndex] at h
      subst h
      exact ⟨[], rest, rfl, by simp, by simp⟩
    · simp only [firstIndex, if_neg ha, Option.map_eq_some'] at h
      obtain ⟨j, hj, hij⟩ := h
      subst hij
      obtain ⟨before, after, h1, h2, h3⟩ := ih j hj
      refine ⟨a :: before, after, by rw [h1]; rfl, ?_, ?_⟩
      · intro hm
        rcases List.mem_cons.1 hm with e | e
        · exact ha e.symm
        · exact h2 e
      · simp only [List.take_succ_cons, List.drop_succ_cons, List.cons_append]
        rw [h3]

theorem RemovePackSize_absent (s : MemoryStorage) (size : Int) (h : size ∉ s.packSizes) :
    s.RemovePackSize size = (s, false) := by
  unfold MemoryStorage.RemovePackSize
  rw [(firstIndex_none s.packSizes size).2 h]

theorem RemovePackSize_present (s : MemoryStorage) (size : Int) (h : size ∈ s.packSizes) :
    ∃ before after, s.packSizes = before ++ size :: after ∧ size ∉ before ∧
      s.RemovePackSize size = ({ packSizes := before ++ after }, true) := by
  cases hf : firstIndex s.packSizes size with
  | none => exact absurd h ((firstIndex_none s.packSizes size).1 hf)
  | some i =>
    obtain ⟨before, after, h1, h2, h3⟩ := firstIndex_some s.packSizes size i hf
    refine ⟨before, after, h1, h2, ?_⟩
    unfold MemoryStorage.RemovePackSize
    rw [hf]
    simp only [h3]

theorem apply_positive (s : MemoryStorage) (op : StorageOp)
    (hs : ∀ x ∈ s.packSizes, 0 < x) (hop : op.Positive) :
    ∀ x ∈ (op.apply s).packSizes, 0 < x := by
  cases op with
  | set sizes => exact hop
  | add size =>
    intro x hx
    simp only [StorageOp.apply, MemoryStorage.AddPackSize] at hx
    split at hx
    · exact hs x hx
    · rcases List.mem_append.1 hx with h | h
      · exact hs x h
      · rw [List.mem_singleton] at h
        subst h
        exact hop
  | remove size =>
    intro x hx
    simp only [StorageOp.apply] at hx
    by_cases hm : size ∈ s.packSizes
    · obtain ⟨before, after, h1, _, h3⟩ := RemovePackSize_present s size hm
      rw [h3] at hx
      apply hs x
      rw [h1]
      rcases List.mem_append.1 hx with h | h
      · exact List.mem_append.2 (Or.inl h)
      · exact List.mem_append.2 (Or.inr (List.mem_cons_of_mem _ h))
    · rw [RemovePackSize_absent s size hm] at hx
      exact hs x hx

theorem runOps_positive (ops : List StorageOp) (s : MemoryStorage)
    (hs : ∀ x ∈ s.packSizes, 0 < x) (hops : ∀ op ∈ ops, op.Positive) :
    ∀ x ∈ (runOps s ops).packSizes, 0 < x := by
  induction ops generalizing s with
  | nil => exact hs
  | cons op rest ih =>
    have h1 := apply_positive s op hs (hops op (List.mem_cons_self _ _))
    exact ih (op.apply s) h1 (fun o ho => hops o (List.mem_cons_of_mem _ ho))

/-! ## The handler `Calculate` -/

theorem respondCalculate_invalid (amount : Int) (packSizes : List Int)
    (hbad : amount ≤ 0 ∨ packSizes = [] ∨ ∃ x ∈ packSizes, x ≤ 0) :
    ∃ code, respondCalculate amount packSizes = some (.failure 400 code) := by
  unfold respondCalculate
  by_cases ha : amount ≤ 0
  · rw [if_pos ha]
    exact ⟨"invalid_amount", rfl⟩
  · rw [if_neg ha]
    by_cases hne : packSizes = []
    · subst hne
      rw [New_nil]
      exact ⟨"calculator_error", rfl⟩
    · rcases hbad with h | h | h
      · exact absurd h ha
      · exact absurd h hne
      · rw [New_of_invalid packSizes hne h]
        exact ⟨"calculator_error", rfl⟩

theorem respondCalculate_status (amount : Int) (packSizes : List Int) (r : Reply)
    (h : respondCalculate amount packSizes = some r) : r.status = 400 ∨ r.status = 200 := by
  unfold respondCalculate at h
  by_cases ha : amount ≤ 0
  · rw [if_pos ha] at h
    cases h
    exact Or.inl rfl
  · rw [if_neg ha] at h
    by_cases hne : packSizes = []
    · subst hne
      rw [New_nil] at h
      cases h
      exact Or.inl rfl
    · rcases valid_or_invalid packSizes with hv | hi
      · have hnew := New_of_valid packSizes hne hv
        obtain ⟨hvc, _⟩ := valid_of_New packSizes _ hnew
        rw [hnew] at h
        simp only [] at h
        cases hc : Calculate { packSizes := sortDescending packSizes } amount with
        | none =>
          simp [CalculateWithDetails, hc] at h
        | some res =>
          cases res with
          | error e => exact absurd hc (Calculate_no_error _ hvc amount (by omega) e)
          | ok plan =>
            rw [CalculateWithDetails_ok _ amount plan hc] at h
            cases h
            exact Or.inr rfl
      · rw [New_of_invalid packSizes hne hi] at h
        cases h
        exact Or.inl rfl

theorem respondCalculate_valid (amount : Int) (packSizes : List Int) (c : Calculator)
    (hnew : New packSizes = .ok c) (ha : 0 < amount) (hfit : Allocates c amount) :
    ∃ body, respondCalculate amount packSizes = some (.success 200 body) := by
  obtain ⟨hvc, _⟩ := valid_of_New packSizes _ hnew
  obtain ⟨plan, hp, _, _⟩ := Calculate_result _ hvc amount ha hfit
  unfold respondCalculate
  rw [if_neg (by omega), hnew]
  simp only [CalculateWithDetails_ok _ amount plan hp]
  exact ⟨_, rfl⟩

theorem Calculate_no_amount (h : Handler) (call : CalculateCall)
    (hn : requestAmount call = none) :
    ∃ code, h.Calculate call = some (.failure 400 code) := by
  obtain ⟨method, q, body⟩ := call
  cases method with
  | GET =>
    by_cases hq : q = ""
    · exact ⟨"missing_amount", by simp [Handler.Calculate, hq]⟩
    · cases hp : parsePositiveInt q with
      | error e => exact ⟨"invalid_amount", by simp [Handler.Calculate, hq, hp]⟩
      | ok n => simp [requestAmount, hq, hp] at hn
  | POST =>
    cases body with
    | none => exact ⟨"invalid_json", by simp [Handler.Calculate]⟩
    | some req => simp [requestAmount] at hn

theorem Calculate_with_amount (h : Handler) (call : CalculateCall) (a : Int)
    (hs : requestAmount call = some a) :
    h.Calculate call = respondCalculate a (effectiveSizes h call) := by
  obtain ⟨method, q, body⟩ := call
  cases method with
  | GET =>
    by_cases hq : q = ""
    · simp [requestAmount, hq] at hs
    · cases hp : parsePositiveInt q with
      | error e => simp [requestAmount, hq, hp] at hs
      | ok n =>
        simp [requestAmount, hq, hp] at hs
        subst hs
        simp [Handler.Calculate, effectiveSizes, hq, hp]
  | POST =>
    cases body with
    | none => simp [requestAmount] at hs
    | some req =>
      simp [requestAmount] at hs
      subst hs
      by_cases hl : req.PackSizes = []
      · simp [Handler.Calculate, effectiveSizes, hl]
      · simp [Handler.Calculate, effectiveSizes, hl, List.length_pos.2 hl]

/-! ## Repeated pack sizes -/

theorem relax_idem (maxTarget i : Int) (t : Table) (packSize : Int) :
    relax maxTarget i (relax maxTarget i t packSize) packSize =
      relax maxTarget i t packSize := by
  by_cases h1 : i + packSize > maxTarget
  · simp [relax, h1]
  · by_cases h2 : idx t.dp i + 1 < idx t.dp (i + packSize)
    · have hne : (i + packSize).toNat ≠ i.toNat := by
        intro e
        have : idx t.dp (i + packSize) = idx t.dp i := by simp [idx, e]
        omega
      have hr : relax maxTarget i t packSize =
          { dp := t.dp.set (i + packSize).toNat (idx t.dp i + 1)
            parent := t.parent.set (i + packSize).toNat packSize } := by
        simp [relax, h1, h2]
      rw [hr]
      have hi : idx (t.dp.set (i + packSize).toNat (idx t.dp i + 1)) i = idx t.dp i :=
        idx_set_other t.dp (i + packSize) i _ hne
      simp only [relax, if_neg h1, hi]
      split
      · simp only [List.set_set]
      · rfl
    · have hr : relax maxTarget i t packSize = t := by
        simp [relax, h1, h2]
      rw [hr, hr]

theorem sorted_mem_tail (a : Int) (rest : List Int)
    (hs : (a :: rest).Sorted (fun x y => y ≤ x)) (ha : a ∈ rest) :
    ∃ rest2, rest = a :: rest2 := by
  cases rest with
  | nil => simp at ha
  | cons b rest2 =>
    have h1 : b ≤ a := List.rel_of_sorted_cons hs b (List.mem_cons_self _ _)
    have h2 : a ≤ b := by
      rcases List.mem_cons.1 ha with e | e
      · omega
      · exact List.rel_of_sorted_cons hs.of_cons a e
    have : b = a := le_antisymm h1 h2
    exact ⟨rest2, by rw [this]⟩

theorem foldl_dedup_of_sorted (f : Table → Int → Table) (hf : ∀ t p, f (f t p) p = f t p)
    (l : List Int) (hs : l.Sorted (fun x y => y ≤ x)) (t : Table) :
    l.dedup.foldl f t = l.foldl f t := by
  induction l generalizing t with
  | nil => rfl
  | cons a rest ih =>
    by_cases ha : a ∈ rest
    · obtain ⟨rest2, hrest⟩ := sorted_mem_tail a rest hs ha
      rw [List.dedup_cons_of_mem ha, ih hs.of_cons t, hrest]
      simp only [List.foldl_cons, hf]
    · rw [List.dedup_cons_of_not_mem ha]
      simp only [List.foldl_cons]
      exact ih hs.of_cons (f t a)

theorem buildTable_dedup (l : List Int) (hs : l.Sorted (fun x y => y ≤ x)) (maxTarget : Int) :
    buildTable l.dedup maxTarget = buildTable l maxTarget := by
  have hstep : buildStep l.dedup maxTarget = buildStep l maxTarget := by
    funext t i
    unfold buildStep
    rw [foldl_dedup_of_sorted (relax maxTarget i) (relax_idem maxTarget i) l hs t]
  unfold buildTable
  rw [hstep]

theorem sorted_le_head (l : List Int) (hs : l.Sorted (fun x y => y ≤ x)) :
    ∀ x ∈ l, x ≤ l.headD 0 := by
  intro x hx
  cases l with
  | nil => simp at hx
  | cons a rest =>
    rcases List.mem_cons.1 hx with e | e
    · simp [e]
    · simpa using List.rel_of_sorted_cons hs x e

theorem sorted_last_le (l : List Int) (hs : l.Sorted (fun x y => y ≤ x)) :
    ∀ x ∈ l, l.getLastD 0 ≤ x := by
  induction l with
  | nil =>
    intro x hx
    simp at hx
  | cons a rest ih =>
    intro x hx
    cases rest with
    | nil =>
      simp at hx
      simp [hx]
    | cons b rest2 =>
      simp only [List.getLastD_cons]
      have hl := ih hs.of_cons
      simp only [List.getLastD_cons] at hl
      rcases List.mem_cons.1 hx with e | e
      · have hmem := getLastD_mem (b :: rest2) (by simp)
        simp only [List.getLastD_cons] at hmem
        rw [e]
        exact List.rel_of_sorted_cons hs _ hmem
      · exact hl x e

theorem headD_mem (l : List Int) (hne : l ≠ []) : l.headD 0 ∈ l := by
  cases l with
  | nil => exact absurd rfl hne
  | cons a rest => simp

theorem sorted_ends_eq (l1 l2 : List Int) (h1 : l1.Sorted (fun x y => y ≤ x))
    (h2 : l2.Sorted (fun x y => y ≤ x)) (hm : ∀ x, x ∈ l1 ↔ x ∈ l2) :
    l1.headD 0 = l2.headD 0 ∧ l1.getLastD 0 = l2.getLastD 0 := by
  by_cases hne : l1 = []
  · have hne2 : l2 = [] := by
      apply List.eq_nil_iff_forall_not_mem.2
      intro x hx
      have := (hm x).2 hx
      rw [hne] at this
      simp at this
    rw [hne, hne2]
    exact ⟨rfl, rfl⟩
  · have hne2 : l2 ≠ [] := by
      intro e
      have := (hm _).1 (headD_mem l1 hne)
      rw [e] at this
      simp at this
    constructor
    · exact le_antisymm (sorted_le_head l2 h2 _ ((hm _).1 (headD_mem l1 hne)))
        (sorted_le_head l1 h1 _ ((hm _).2 (headD_mem l2 hne2)))
    · exact le_antisymm (sorted_last_le l1 h1 _ ((hm _).2 (getLastD_mem l2 hne2)))
        (sorted_last_le l2 h2 _ ((hm _).1 (getLastD_mem l1 hne)))

theorem Calculate_dedup (c : Calculator) (hs : c.packSizes.Sorted (fun x y => y ≤ x))
    (amount : Int) :
    Calculate { packSizes := c.packSizes.dedup } amount = Calculate c amount := by
  have hsd : c.packSizes.dedup.Sorted (fun x y => y ≤ x) :=
    List.Pairwise.sublist (List.dedup_sublist c.packSizes) hs
  obtain ⟨hh, hl⟩ := sorted_ends_eq c.packSizes.dedup c.packSizes hsd hs
    (fun x => List.mem_dedup)
  have hlen : c.packSizes.dedup.length = 0 ↔ c.packSizes.length = 0 := by
    rw [List.length_eq_zero, List.length_eq_zero, List.dedup_eq_nil]
  unfold Calculate
  simp only [hh, hl, hlen, buildTable_dedup c.packSizes hs]

theorem sortDescending_nodup (d packSizes : List Int) (hd : d.Nodup)
    (hmem : ∀ x, x ∈ d ↔ x ∈ packSizes) :
    sortDescending d = (sortDescending packSizes).dedup := by
  haveI : IsAntisymm Int (fun a b => b ≤ a) := ⟨fun a b h1 h2 => le_antisymm h2 h1⟩
  have hnd : (sortDescending d).Nodup := (sortDescending_perm d).nodup_iff.2 hd
  have hperm : (sortDescending d).Perm (sortDescending packSizes).dedup := by
    rw [List.perm_ext_iff_of_nodup hnd (List.nodup_dedup _)]
    intro x
    rw [List.mem_dedup, mem_sortDescending, mem_sortDescending]
    exact hmem x
  exact List.eq_of_perm_of_sorted hperm (sortDescending_sorted d)
    (List.Pairwise.sublist (List.dedup_sublist _) (sortDescending_sorted packSizes))

/-! ## Rejected pack sizes -/

theorem SetPackSizes_nil (c : Calculator) : SetPackSizes c [] = (c, some .ErrNoPackSizes) :=
  rfl

theorem SetPackSizes_of_invalid (c : Calculator) (packSizes : List Int) (hne : packSizes ≠ [])
    (h : ∃ x ∈ packSizes, x ≤ 0) :
    SetPackSizes c packSizes = (c, some .ErrInvalidPackSize) := by
  have hlen : packSizes.length ≠ 0 := by
    intro h0
    exact hne (List.length_eq_zero.1 h0)
  simp [SetPackSizes, hlen, copySizes_error packSizes h]

theorem hasNonPositive_iff (l : List Int) : hasNonPositive l = true ↔ ∃ x ∈ l, x ≤ 0 := by
  induction l with
  | nil => simp [hasNonPositive]
  | cons a rest ih =>
    by_cases h : a ≤ 0
    · simp [hasNonPositive, h]
    · simp [hasNonPositive, h, ih]

/-! ## The end state of the backtracking loop -/

theorem backtrack_eq_state (parent : List Int) (fuel : Nat) :
    ∀ (current : Int) (result : Plan),
      backtrack parent fuel current result =
        (backtrackState parent fuel current result).map (fun e => e.result) := by
  induction fuel with
  | zero =>
    intro current result
    by_cases hc : current > 0
    · simp [backtrack, backtrackState, hc]
    · simp [backtrack, backtrackState, hc]
  | succ fuel ih =>
    intro current result
    by_cases hc : current > 0
    · by_cases hp : idx parent current = -1
      · simp [backtrack, backtrackState, hc, hp]
      · simp [backtrack, backtrackState, hc, hp, ih]
    · simp [backtrack, backtrackState, hc]

theorem backtrackState_spec (sizes : List Int) (hpos : ∀ p ∈ sizes, 0 < p) (maxTarget : Int)
    (t : Table) (h : TableInv sizes maxTarget (maxTarget + 1) [] t) (fuel : Nat) :
    ∀ (current : Int) (result : Plan), 0 ≤ current → current ≤ maxTarget →
      idx t.dp current ≠ impossible → current.toNat ≤ fuel →
      ∃ plan, backtrackState t.parent fuel current result =
          some { result := plan, current := 0, broke := false } ∧
        planItems plan = planItems result + current ∧
        planPacks plan = planPacks result + idx t.dp current := by
  induction fuel with
  | zero =>
    intro current result h0 _ _ hf
    have hc : current = 0 := by omega
    subst hc
    exact ⟨result, by simp [backtrackState], by simp, by simp [h.dp_zero]⟩
  | succ fuel ih =>
    intro current result h0 hm hne hf
    by_cases hc : current = 0
    · subst hc
      exact ⟨result, by simp [backtrackState], by simp, by simp [h.dp_zero]⟩
    · have hcpos : current > 0 := by omega
      obtain ⟨h1, h2, h3, h4, h5⟩ := h.chain current (by omega) hm hne
      have hpp : 0 < idx t.parent current := hpos _ h1
      have hne1 : idx t.parent current ≠ -1 := by omega
      obtain ⟨plan, hp1, hp2, hp3⟩ :=
        ih (current - idx t.parent current) (incr result (idx t.parent current)) h3
          (by omega) h4 (by omega)
      refine ⟨plan, ?_, ?_, ?_⟩
      · simp only [backtrackState, hcpos, if_true, hne1, if_false]
        exact hp1
      · rw [hp2, planItems_incr]
        omega
      · rw [hp3, planPacks_incr]
        omega

/-! ## The table while every pack count stays below the sentinel -/

theorem table_meaning_of_small (c : Calculator) (hv : ValidCalc c) (amount : Int)
    (ha : 0 < amount) (hfit : Allocates c amount) (hsmall : maxTargetOf c amount < impossible)
    (n : Int) (hn : 0 ≤ n)
    (hnm : n ≤ maxTargetOf c amount) :
    (idx (tableOf c amount).dp n ≠ impossible ↔ ∃ l, PacksOf c.packSizes l ∧ l.sum = n) ∧
      (idx (tableOf c amount).dp n ≠ impossible →
        (∃ l, PacksOf c.packSizes l ∧ l.sum = n ∧
          (l.length : Int) = idx (tableOf c amount).dp n) ∧
        ∀ l, PacksOf c.packSizes l → l.sum = n →
          idx (tableOf c amount).dp n ≤ (l.length : Int)) := by
  have hreach : ∀ l, PacksOf c.packSizes l → l.sum = n →
      idx (tableOf c amount).dp n ≤ (l.length : Int) ∧
        idx (tableOf c amount).dp n ≠ impossible := by
    intro l hl hsum
    have hlen := length_le_sum c.packSizes hv.2 l hl
    have hd := dp_of_reach c hv amount ha hfit l hl (by omega) (by omega)
    rw [hsum] at hd
    exact hd
  constructor
  · constructor
    · intro hne
      obtain ⟨l, h1, h2, _, _⟩ := reach_of_dp c hv amount ha hfit n hn hnm hne
      exact ⟨l, h1, h2⟩
    · rintro ⟨l, hl, hsum⟩
      exact (hreach l hl hsum).2
  · intro hne
    obtain ⟨l, h1, h2, h3, _⟩ := reach_of_dp c hv amount ha hfit n hn hnm hne
    exact ⟨⟨l, h1, h2, h3⟩, fun l2 hl2 hsum2 => (hreach l2 hl2 hsum2).1⟩

/-! ## Parsing while the value stays below `2^63` -/

theorem wrapInt_of_small (x : Int) (h0 : 0 ≤ x) (h1 : x < 9223372036854775808) :
    wrapInt x = x := by
  unfold wrapInt
  omega

theorem isDigit_iff (c : Char) : ¬ (c < '0' ∨ c > '9') ↔ IsDigit c := by
  unfold IsDigit
  rw [not_or, not_lt, not_lt]

theorem isDigit_toNat (c : Char) (h : IsDigit c) : 48 ≤ c.toNat ∧ c.toNat ≤ 57 :=
  ⟨h.1, h.2⟩

theorem parseDigits_non_digit (l : List Char) (h : ∃ c ∈ l, ¬ IsDigit c) :
    ∀ n, parseDigits l n = .error .ErrInvalidAmount := by
  induction l with
  | nil =>
    obtain ⟨c, hc, _⟩ := h
    simp at hc
  | cons a rest ih =>
    intro n
    by_cases ha : IsDigit a
    · have hrest : ∃ c ∈ rest, ¬ IsDigit c := by
        obtain ⟨c, hc, hcd⟩ := h
        rcases List.mem_cons.1 hc with e | e
        · rw [e] at hcd
          exact absurd ha hcd
        · exact ⟨c, e, hcd⟩
      have hna : ¬ (a < '0' ∨ a > '9') := (isDigit_iff a).2 ha
      simp only [parseDigits, if_neg hna]
      exact ih hrest _
    · have hna : a < '0' ∨ a > '9' := by
        by_contra hcon
        exact ha ((isDigit_iff a).1 hcon)
      simp only [parseDigits, if_pos hna]

theorem foldl_digits_ge (l : List Char) :
    ∀ n : Nat, n ≤ l.foldl (fun n c => n * 10 + (c.toNat - 48)) n := by
  induction l with
  | nil =>
    intro n
    exact le_refl _
  | cons a rest ih =>
    intro n
    simp only [List.foldl_cons]
    have := ih (n * 10 + (a.toNat - 48))
    omega

theorem parseDigits_of_small (l : List Char) (hd : ∀ c ∈ l, IsDigit c) :
    ∀ n : Nat, l.foldl (fun n c => n * 10 + (c.toNat - 48)) n < 9223372036854775808 →
      parseDigits l (n : Int) =
        .ok ((l.foldl (fun n c => n * 10 + (c.toNat - 48)) n : Nat) : Int) := by
  induction l with
  | nil =>
    intro n _
    rfl
  | cons a rest ih =>
    intro n hs
    have ha := hd a (List.mem_cons_self _ _)
    have hna : ¬ (a < '0' ∨ a > '9') := (isDigit_iff a).2 ha
    obtain ⟨h1, h2⟩ := isDigit_toNat a ha
    simp only [List.foldl_cons] at hs ⊢
    have hge := foldl_digits_ge rest (n * 10 + (a.toNat - 48))
    have hz : ('0' : Char).toNat = 48 := rfl
    have hstep : wrapInt ((n : Int) * 10 + ((a.toNat : Int) - (('0' : Char).toNat : Int))) =
        ((n * 10 + (a.toNat - 48) : Nat) : Int) := by
      rw [hz, wrapInt_of_small _ (by omega) (by omega)]
      omega
    simp only [parseDigits, if_neg hna, hstep]
    exact ih (fun c hc => hd c (List.mem_cons_of_mem _ hc)) _ hs

theorem parsePositiveInt_non_digit (s : String) (h : ∃ c ∈ s.toList, ¬ IsDigit c) :
    parsePositiveInt s = .error .ErrInvalidAmount := by
  unfold parsePositiveInt
  rw [parseDigits_non_digit s.toList h 0]

theorem parsePositiveInt_of_small (s : String) (hd : ∀ c ∈ s.toList, IsDigit c)
    (hs : decimalValue s.toList < 9223372036854775808) :
    parsePositiveInt s =
      if decimalValue s.toList = 0 then .error .ErrInvalidAmount
      else .ok (decimalValue s.toList : Int) := by
  have h := parseDigits_of_small s.toList hd 0 hs
  simp only [Nat.cast_zero] at h
  unfold parsePositiveInt
  rw [h]
  by_cases h0 : decimalValue s.toList = 0
  · have h1 : ((s.toList.foldl (fun n c => n * 10 + (c.toNat - 48)) 0 : Nat) : Int) ≤ 0 := by
      have : s.toList.foldl (fun n c => n * 10 + (c.toNat - 48)) 0 = 0 := h0
      omega
    simp only [h1, if_true, h0]
  · have h1 : ¬ ((s.toList.foldl (fun n c => n * 10 + (c.toNat - 48)) 0 : Nat) : Int) ≤ 0 := by
      have : s.toList.foldl (fun n c => n * 10 + (c.toNat - 48)) 0 ≠ 0 := h0
      omega
    simp only [h1, if_false, h0]
    rfl

/-! ## The tie-break of the table construction -/

theorem relax_tie (sizes : List Int) (hpos : ∀ p ∈ sizes, 0 < p) (maxTarget k : Int)
    (hk0 : 0 ≤ k) (done : List Int) (t : Table) (p : Int) (hp : p ∈ sizes)
    (h : TableInv sizes maxTarget k done t) (htie : TieInv sizes maxTarget k done t) :
    TieInv sizes maxTarget k (done ++ [p]) (relax maxTarget k t p) := by
  have hp0 : 0 < p := hpos p hp
  have hkeep : ¬ (idx t.dp k + 1 < idx t.dp (k + p) ∧ k + p ≤ maxTarget) →
      TieInv sizes maxTarget k (done ++ [p]) t := by
    intro hno n q hq hnq hnm hrel hne heq
    rcases hrel with hlt | ⟨hk, hqd⟩
    · exact htie n q hq hnq hnm (Or.inl hlt) hne heq
    · rcases List.mem_append.1 hqd with hqd | hqd
      · exact htie n q hq hnq hnm (Or.inr ⟨hk, hqd⟩) hne heq
      · rw [List.mem_singleton] at hqd
        subst hqd
        have hq0 := hpos q hq
        obtain ⟨_, h2, _, _, _⟩ := h.chain n (by omega) hnm hne
        omega
  unfold relax
  simp only
  split
  · rename_i hgt
    exact hkeep (by omega)
  · rename_i hgt
    split
    · rename_i hlt
      have hnextm : k + p ≤ maxTarget := by omega
      have hlen : (k + p).toNat < t.dp.length := by
        rw [h.len_dp]
        omega
      have hlenp : (k + p).toNat < t.parent.length := by
        rw [h.len_parent]
        omega
      have hA : ∀ n, 0 ≤ n → n ≠ k + p →
          idx (t.dp.set (k + p).toNat (idx t.dp k + 1)) n = idx t.dp n := by
        intro n hn hne
        apply idx_set_other
        omega
      have hAp : ∀ n, 0 ≤ n → n ≠ k + p →
          idx (t.parent.set (k + p).toNat p) n = idx t.parent n := by
        intro n hn hne
        apply idx_set_other
        omega
      have hB : idx (t.dp.set (k + p).toNat (idx t.dp k + 1)) (k + p) = idx t.dp k + 1 :=
        idx_set_self _ _ _ hlen
      have hBp : idx (t.parent.set (k + p).toNat p) (k + p) = p :=
        idx_set_self _ _ _ hlenp
      intro n q hq hnq hnm hrel
      have hq0 := hpos q hq
      show idx (t.dp.set (k + p).toNat (idx t.dp k + 1)) n ≠ impossible →
        idx (t.dp.set (k + p).toNat (idx t.dp k + 1)) n =
          idx (t.dp.set (k + p).toNat (idx t.dp k + 1)) (n - q) + 1 →
        q ≤ idx (t.parent.set (k + p).toNat p) n
      have hsrc : n - q ≠ k + p := by
        rcases hrel with hlt | ⟨hk, _⟩ <;> omega
      rw [hA (n - q) hnq hsrc]
      by_cases hn : n = k + p
      · subst hn
        rw [hB, hBp]
        intro _ heq
        rcases hrel with hlt | ⟨hk, _⟩
        · exfalso
          have hle := h.dp_le (k + p) (by omega) hnextm
          have hsne : idx t.dp (k + p - q) ≠ impossible := by omega
          have hc := h.closed (k + p - q) q hnq hlt hq (by omega) hsne
          have he : k + p - q + q = k + p := by omega
          rw [he] at hc
          omega
        · omega
      · rw [hA n (by omega) hn, hAp n (by omega) hn]
        intro hne heq
        rcases hrel with hlt | ⟨hk, hqd⟩
        · exact htie n q hq hnq hnm (Or.inl hlt) hne heq
        · rcases List.mem_append.1 hqd with hqd | hqd
          · exact htie n q hq hnq hnm (Or.inr ⟨hk, hqd⟩) hne heq
          · rw [List.mem_singleton] at hqd
            subst hqd
            omega
    · rename_i hlt
      exact hkeep (by omega)

theorem foldl_relax_tie (sizes : List Int) (hpos : ∀ p ∈ sizes, 0 < p) (maxTarget k : Int)
    (hk0 : 0 ≤ k) (rest : List Int) :
    ∀ (done : List Int) (t : Table), (∀ p ∈ rest, p ∈ sizes) →
      TableInv sizes maxTarget k done t → TieInv sizes maxTarget k done t →
      TieInv sizes maxTarget k (done ++ rest) (rest.foldl (relax maxTarget k) t) := by
  induction rest with
  | nil =>
    intro done t _ _ h
    simpa using h
  | cons p rest ih =>
    intro done t hmem h htie
    have hp : p ∈ sizes := hmem p (List.mem_cons_self _ _)
    have h1 := relax_inv sizes hpos maxTarget k hk0 done t p hp h
    have h2 := relax_tie sizes hpos maxTarget k hk0 done t p hp h htie
    have h3 := ih (done ++ [p]) (relax maxTarget k t p)
      (fun q hq => hmem q (List.mem_cons_of_mem _ hq)) h1 h2
    simpa using h3

theorem tie_advance (sizes : List Int) (hpos : ∀ p ∈ sizes, 0 < p) (maxTarget k : Int)
    (done : List Int) (t : Table)
    (hdone : (∀ p ∈ sizes, p ∈ done) ∨ idx t.dp k = impossible)
    (h : TableInv sizes maxTarget k done t) (htie : TieInv sizes maxTarget k done t) :
    TieInv sizes maxTarget (k + 1) [] t := by
  intro n q hq hnq hnm hrel hne heq
  have hq0 := hpos q hq
  rcases hrel with hlt | ⟨_, hnil⟩
  · by_cases hk : n - q < k
    · exact htie n q hq hnq hnm (Or.inl hk) hne heq
    · have hk2 : n - q = k := by omega
      rcases hdone with hd | hd
      · exact htie n q hq hnq hnm (Or.inr ⟨hk2, hd q hq⟩) hne heq
      · exfalso
        rw [hk2, hd] at heq
        have hle := h.dp_le n (by omega) hnm
        omega
  · simp at hnil

theorem buildStep_tie (sizes : List Int) (hpos : ∀ p ∈ sizes, 0 < p) (maxTarget : Int)
    (k : Nat) (t : Table) (h : TableInv sizes maxTarget k [] t)
    (htie : TieInv sizes maxTarget k [] t) :
    TieInv sizes maxTarget ((k : Int) + 1) [] (buildStep sizes maxTarget t k) := by
  unfold buildStep
  split
  · rename_i himp
    exact tie_advance sizes hpos maxTarget k [] t (Or.inr himp) h htie
  · have h1 := foldl_relax_inv sizes hpos maxTarget k (by omega) sizes [] t (fun p hp => hp) h
    have h2 := foldl_relax_tie sizes hpos maxTarget k (by omega) sizes [] t (fun p hp => hp)
      h htie
    exact tie_advance sizes hpos maxTarget k _ _ (Or.inl (fun p hp => by simpa using hp)) h1 h2

theorem buildPrefix_tie (sizes : List Int) (hpos : ∀ p ∈ sizes, 0 < p) (maxTarget : Int)
    (hm : 0 ≤ maxTarget) (k : Nat) :
    TieInv sizes maxTarget k []
      ((List.range k).foldl (buildStep sizes maxTarget) (initTable maxTarget)) := by
  induction k with
  | zero =>
    intro n q _ hnq _ hrel _ _
    rcases hrel with hlt | ⟨_, hnil⟩
    · simp at hlt
      omega
    · simp at hnil
  | succ k ih =>
    rw [List.range_succ, List.foldl_append]
    have h := buildStep_tie sizes hpos maxTarget k _
      (buildPrefix_inv sizes hpos maxTarget hm k) ih
    simpa using h

theorem buildTable_tie (sizes : List Int) (hpos : ∀ p ∈ sizes, 0 < p) (maxTarget : Int)
    (hm : 0 ≤ maxTarget) :
    TieInv sizes maxTarget (maxTarget + 1) [] (buildTable sizes maxTarget) := by
  have h := buildPrefix_tie sizes hpos maxTarget hm (maxTarget + 1).toNat
  have hc : (((maxTarget + 1).toNat : Nat) : Int) = maxTarget + 1 := by omega
  rw [hc] at h
  exact h

/-- In the finished table the pack stored in `parent[n]` is the largest pack size `q`
with `dp[n - q] + 1 = dp[n]`. -/
theorem parent_is_largest (sizes : List Int) (hpos : ∀ p ∈ sizes, 0 < p) (maxTarget : Int)
    (t : Table) (h : TableInv sizes maxTarget (maxTarget + 1) [] t)
    (htie : TieInv sizes maxTarget (maxTarget + 1) [] t) (n : Int) (hn : 0 < n)
    (hnm : n ≤ maxTarget) (hne : idx t.dp n ≠ impossible) :
    idx t.parent n ∈ sizes ∧ 0 ≤ n - idx t.parent n ∧
      idx t.dp n = idx t.dp (n - idx t.parent n) + 1 ∧
      ∀ q ∈ sizes, 0 ≤ n - q → idx t.dp n = idx t.dp (n - q) + 1 → q ≤ idx t.parent n := by
  obtain ⟨h1, _, h3, _, h5⟩ := h.chain n hn hnm hne
  refine ⟨h1, h3, h5, ?_⟩
  intro q hq hnq heq
  have hq0 := hpos q hq
  exact htie n q hq hnq hnm (Or.inl (by omega)) hne heq

/-! ## The packs taken by the backtracking loop -/

theorem backtrackPacks_zero (parent : List Int) (fuel : Nat) :
    backtrackPacks parent fuel 0 = [] := by
  cases fuel <;> simp [backtrackPacks]

theorem backtrackPacks_spec (sizes : List Int) (hpos : ∀ p ∈ sizes, 0 < p) (maxTarget : Int)
    (t : Table) (h : TableInv sizes maxTarget (maxTarget + 1) [] t)
    (htie : TieInv sizes maxTarget (maxTarget + 1) [] t) (fuel : Nat) :
    ∀ current : Int, 0 ≤ current → current ≤ maxTarget →
      idx t.dp current ≠ impossible → current.toNat ≤ fuel →
      (backtrackPacks t.parent fuel current).Sorted (fun a b => b ≤ a) ∧
      (∀ x ∈ backtrackPacks t.parent fuel current, x ≤ idx t.parent current) ∧
      ∀ l, PacksOf sizes l → l.sum = current → (l.length : Int) = idx t.dp current →
        lexLe l (backtrackPacks t.parent fuel current) := by
  have hnil : ∀ l : List Int, l.sum = 0 → (l.length : Int) = idx t.dp 0 → l = [] := by
    intro l _ hlen
    rw [h.dp_zero] at hlen
    exact List.length_eq_zero.1 (by omega)
  induction fuel with
  | zero =>
    intro current h0 _ _ hf
    have hc : current = 0 := by omega
    subst hc
    refine ⟨by simp [backtrackPacks], by simp [backtrackPacks], ?_⟩
    intro l _ hsum hlen
    rw [hnil l hsum hlen]
    simp [lexLe]
  | succ fuel ih =>
    intro current h0 hm hne hf
    by_cases hc : current = 0
    · subst hc
      refine ⟨by simp [backtrackPacks], by simp [backtrackPacks], ?_⟩
      intro l _ hsum hlen
      rw [hnil l hsum hlen]
      simp [lexLe]
    · have hcpos : current > 0 := by omega
      obtain ⟨h1, h3, h5, hbig⟩ :=
        parent_is_largest sizes hpos maxTarget t h htie current hcpos hm hne
      obtain ⟨_, _, _, h4, _⟩ := h.chain current hcpos hm hne
      have hpp : 0 < idx t.parent current := hpos _ h1
      have hne1 : idx t.parent current ≠ -1 := by omega
      have hle := h.dp_le current h0 hm
      obtain ⟨ih1, ih2, ih3⟩ := ih (current - idx t.parent current) h3 (by omega) h4 (by omega)
      have hstep : backtrackPacks t.parent (fuel + 1) current =
          idx t.parent current ::
            backtrackPacks t.parent fuel (current - idx t.parent current) := by
        simp only [backtrackPacks, hcpos, if_true, hne1, if_false]
      have hbound : ∀ x ∈ backtrackPacks t.parent fuel (current - idx t.parent current),
          x ≤ idx t.parent current := by
        intro x hx
        by_cases hz : current - idx t.parent current = 0
        · rw [hz, backtrackPacks_zero] at hx
          simp at hx
        · have hx2 := ih2 x hx
          obtain ⟨g1, g3, g5, _⟩ := parent_is_largest sizes hpos maxTarget t h htie
            (current - idx t.parent current) (by omega) (by omega) h4
          obtain ⟨_, _, _, g4, _⟩ := h.chain (current - idx t.parent current) (by omega)
            (by omega) h4
          have hp2 := hpos _ g1
          have hc1 := h.closed
            (current - idx t.parent current -
              idx t.parent (current - idx t.parent current))
            (idx t.parent current) g3 (by omega) h1 (by omega) g4
          have e1 : current - idx t.parent current -
              idx t.parent (current - idx t.parent current) + idx t.parent current =
              current - idx t.parent (current - idx t.parent current) := by omega
          rw [e1] at hc1
          have hne2 : idx t.dp (current - idx t.parent (current - idx t.parent current))
              ≠ impossible := by omega
          have hc2 := h.closed
            (current - idx t.parent (current - idx t.parent current))
            (idx t.parent (current - idx t.parent current)) (by omega) (by omega) g1
            (by omega) hne2
          have e2 : current - idx t.parent (current - idx t.parent current) +
              idx t.parent (current - idx t.parent current) = current := by omega
          rw [e2] at hc2
          have := hbig _ g1 (by omega) (by omega)
          omega
      rw [hstep]
      refine ⟨List.sorted_cons.2 ⟨hbound, ih1⟩, ?_, ?_⟩
      · intro x hx
        rcases List.mem_cons.1 hx with e | e
        · omega
        · exact hbound x e
      · intro l hl hsum hlen
        cases l with
        | nil => simp [lexLe]
        | cons q rest =>
          have hq : q ∈ sizes := hl q (List.mem_cons_self _ _)
          have hq0 := hpos q hq
          have hrest : PacksOf sizes rest := fun x hx => hl x (List.mem_cons_of_mem _ hx)
          have hr0 := packs_sum_nonneg sizes hpos rest hrest
          simp only [List.sum_cons, List.length_cons] at hsum hlen
          push_cast at hlen
          have hcomp := table_complete sizes hpos maxTarget t h rest hrest (by omega)
            (by omega)
          have hc := h.closed rest.sum q hr0 (by omega) hq (by omega) (by omega)
          have e : rest.sum + q = current := by omega
          rw [e] at hc
          have e2 : current - q = rest.sum := by omega
          have hqle := hbig q hq (by omega) (by rw [e2]; omega)
          simp only [lexLe]
          by_cases hlt : q < idx t.parent current
          · exact Or.inl hlt
          · have heq : q = idx t.parent current := by omega
            refine Or.inr ⟨heq, ih3 rest hrest (by omega) ?_⟩
            have e3 : current - idx t.parent current = rest.sum := by omega
            rw [e3]
            omega

theorem planList_incr (result : Plan) (p : Int) (hq : ∀ e ∈ result, 0 ≤ e.2) :
    (planList (incr result p)).Perm (p :: planList result) := by
  induction result with
  | nil => simp [incr, planList]
  | cons e rest ih =>
    obtain ⟨k, v⟩ := e
    have hv : 0 ≤ v := hq (k, v) (List.mem_cons_self _ _)
    by_cases hk : k = p
    · subst hk
      have hs : (v + 1).toNat = v.toNat + 1 := by omega
      simp only [incr, if_true, planList, hs, List.replicate_succ, List.cons_append]
      exact List.Perm.refl _
    · simp only [incr, if_neg hk, planList]
      have h1 := ih (fun e he => hq e (List.mem_cons_of_mem _ he))
      exact (List.Perm.append_left _ h1).trans List.perm_middle

theorem incr_nonneg (result : Plan) (p : Int) (hq : ∀ e ∈ result, 0 ≤ e.2) :
    ∀ e ∈ incr result p, 0 ≤ e.2 := by
  induction result with
  | nil =>
    intro e he
    simp [incr] at he
    subst he
    show (0 : Int) ≤ 1
    omega
  | cons a rest ih =>
    obtain ⟨k, v⟩ := a
    have hv : 0 ≤ v := hq (k, v) (List.mem_cons_self _ _)
    have hrest := ih (fun e he => hq e (List.mem_cons_of_mem _ he))
    intro e he
    by_cases hk : k = p
    · simp only [incr, if_pos hk] at he
      rcases List.mem_cons.1 he with e1 | e1
      · subst e1
        show 0 ≤ v + 1
        omega
      · exact hq e (List.mem_cons_of_mem _ e1)
    · simp only [incr, if_neg hk] at he
      rcases List.mem_cons.1 he with e1 | e1
      · subst e1
        exact hv
      · exact hrest e e1

theorem backtrack_packs (parent : List Int) (fuel : Nat) :
    ∀ (current : Int) (result plan : Plan), (∀ e ∈ result, 0 ≤ e.2) →
      backtrack parent fuel current result = some plan →
      (planList plan).Perm (backtrackPacks parent fuel current ++ planList result) := by
  induction fuel with
  | zero =>
    intro current result plan _ hb
    by_cases hc : current > 0
    · simp [backtrack, hc] at hb
    · simp [backtrack, hc] at hb
      subst hb
      simp [backtrackPacks]
  | succ fuel ih =>
    intro current result plan hq hb
    by_cases hc : current > 0
    · by_cases hp : idx parent current = -1
      · simp [backtrack, hc, hp] at hb
        subst hb
        simp [backtrackPacks, hc, hp]
      · simp only [backtrack, hc, if_true, hp, if_false] at hb
        have h1 := ih _ _ plan (incr_nonneg result _ hq) hb
        have h2 := planList_incr result (idx parent current) hq
        simp only [backtrackPacks, hc, if_true, hp, if_false, List.cons_append]
        exact (h1.trans (List.Perm.append_left _ h2)).trans List.perm_middle
    · simp [backtrack, hc] at hb
      subst hb
      simp [backtrackPacks, hc]

theorem tableOf_tie (c : Calculator) (hv : ValidCalc c) (amount : Int) (ha : 0 < amount)
    (hfit : Allocates c amount) :
    TieInv c.packSizes (maxTargetOf c amount) (maxTargetOf c amount + 1) []
      (tableOf c amount) := by
  have hm := maxTargetOf_bounds c hv amount ha hfit
  exact buildTable_tie c.packSizes hv.2 (maxTargetOf c amount) (by omega)

/-- Whenever the scan finds a target, the returned plan lists, in non-increasing order,
the packs the loop took, and every list of pack sizes with the same total and the same
length comes at or before it in the lexicographic order. -/
theorem tie_break_found (c : Calculator) (hv : ValidCalc c) (amount : Int) (ha : 0 < amount)
    (ht : targetOf c amount ≠ -1) :
    ∃ plan, Calculate c amount = some (.ok plan) ∧
      planItems plan = targetOf c amount ∧
      planPacks plan = idx (tableOf c amount).dp (targetOf c amount) ∧
      sortDescending (planList plan) =
        backtrackPacks (tableOf c amount).parent (targetOf c amount).toNat
          (targetOf c amount) ∧
      ∀ l, PacksOf c.packSizes l → l.sum = planItems plan →
        (l.length : Int) = planPacks plan →
        lexLe (sortDescending l) (sortDescending (planList plan)) := by
  have hfit := allocates_of_target c amount ht
  obtain ⟨plan, h1, h2, h3, _⟩ := Calculate_normal c hv amount ha ht
  rcases targetOf_spec c hv amount ha hfit with ⟨e, _⟩ | ⟨t1, t2, t3, _⟩
  · exact absurd e ht
  · have hinv := tableOf_inv c hv amount ha hfit
    have htie := tableOf_tie c hv amount ha hfit
    obtain ⟨s1, _, s3⟩ := backtrackPacks_spec c.packSizes hv.2 (maxTargetOf c amount)
      (tableOf c amount) hinv htie (targetOf c amount).toNat (targetOf c amount) (by omega)
      t2 t3 (le_refl _)
    have hb : backtrack (tableOf c amount).parent (targetOf c amount).toNat
        (targetOf c amount) [] = some plan := by
      have h1b := h1
      rw [Calculate_eq c hv amount ha hfit, if_neg ht] at h1b
      cases hbt : backtrack (tableOf c amount).parent (targetOf c amount).toNat
          (targetOf c amount) [] with
      | none =>
        rw [hbt] at h1b
        simp at h1b
      | some pl =>
        rw [hbt] at h1b
        simp at h1b
        rw [h1b]
    have hperm := backtrack_packs _ _ _ [] plan (fun e he => by simp at he) hb
    simp only [planList, List.append_nil] at hperm
    have hsorted : sortDescending (planList plan) =
        backtrackPacks (tableOf c amount).parent (targetOf c amount).toNat
          (targetOf c amount) := by
      haveI : IsAntisymm Int (fun a b => b ≤ a) := ⟨fun a b h1 h2 => le_antisymm h2 h1⟩
      exact List.eq_of_perm_of_sorted ((sortDescending_perm _).trans hperm)
        (sortDescending_sorted _) s1
    refine ⟨plan, h1, h2, h3, hsorted, ?_⟩
    intro l hl hsum hlen
    rw [hsorted]
    apply s3
    · intro x hx
      exact hl x ((mem_sortDescending l x).1 hx)
    · rw [(sortDescending_perm l).sum_eq, hsum, h2]
    · rw [(sortDescending_perm l).length_eq, hlen, h3]

/-- While `amount + largest` stays below the sentinel, the returned plan has the least
total, the fewest packs for that total, and among the lists of pack sizes with that total
and that many packs its non-increasing listing is the lexicographically greatest. -/
theorem tie_break_of_small (c : Calculator) (hv : ValidCalc c) (amount : Int)
    (ha : 0 < amount) (hfit : Allocates c amount) (hsmall : maxTargetOf c amount < impossible) :
    ∃ plan, Calculate c amount = some (.ok plan) ∧ amount ≤ planItems plan ∧
      (∀ l, PacksOf c.packSizes l → amount ≤ l.sum → planItems plan ≤ l.sum) ∧
      (∀ l, PacksOf c.packSizes l → l.sum = planItems plan →
        planPacks plan ≤ (l.length : Int)) ∧
      ∀ l, PacksOf c.packSizes l → l.sum = planItems plan →
        (l.length : Int) = planPacks plan →
        lexLe (sortDescending l) (sortDescending (planList plan)) := by
  have ht := target_found_of_small c hv amount ha hfit hsmall
  obtain ⟨plan, h1, _, _, _, h5⟩ := tie_break_found c hv amount ha ht
  obtain ⟨plan2, g1, g2, g3, g4⟩ := optimal_of_small c hv amount ha hfit hsmall
  have he : plan2 = plan := by
    rw [h1] at g1
    simp at g1
    exact g1.symm
  subst he
  exact ⟨plan2, h1, g2, g3, g4, h5⟩

theorem not_lexLe_of_lt (a : Int) (l m : List Int) (h : ∀ x ∈ m, x < a) :
    ¬ lexLe (a :: l) m := by
  cases m with
  | nil => simp [lexLe]
  | cons b rest =>
    have hb := h b (List.mem_cons_self _ _)
    simp only [lexLe]
    rintro (h1 | ⟨h1, _⟩) <;> omega

/-! ## Runs that return -/

theorem isInt_head (packSizes : List Int) (c : Calculator) (hnew : New packSizes = .ok c)
    (hsizes : ∀ x ∈ packSizes, IsInt x) : IsInt (c.packSizes.headD 0) := by
  obtain ⟨hv, hmem⟩ := valid_of_New packSizes c hnew
  exact hsizes _ ((hmem _).1 (valid_head c hv).1)

theorem allocates_of_plan (packSizes : List Int) (c : Calculator)
    (hnew : New packSizes = .ok c) (hsizes : ∀ x ∈ packSizes, IsInt x) (amount : Int)
    (hamount : IsInt amount) (ha : 0 < amount) (r : Except CalcError Plan)
    (h : Calculate c amount = some r) : Allocates c amount := by
  obtain ⟨hv, _⟩ := valid_of_New packSizes c hnew
  exact allocates_of_return c hv amount ha hamount (isInt_head packSizes c hnew hsizes) r h

theorem details_of_ok (c : Calculator) (amount : Int) (r : CalculationResult)
    (h : CalculateWithDetails c amount = some (.ok r)) :
    ∃ plan, Calculate c amount = some (.ok plan) ∧
      r = { Packs := plan, TotalItems := planItems plan, TotalPacks := planPacks plan,
            OrderAmount := amount } := by
  cases hc : Calculate c amount with
  | none => simp [CalculateWithDetails, hc] at h
  | some res =>
    cases res with
    | error e => simp [CalculateWithDetails, hc] at h
    | ok plan =>
      rw [CalculateWithDetails_ok c amount plan hc] at h
      simp only [Option.some.injEq, Except.ok.injEq] at h
      exact ⟨plan, rfl, h.symm⟩

/-- On a calculator returned by `New`, for values of `int`: `Calculate` returns
`ErrInvalidAmount` when `amount <= 0`, a plan when `amount > 0` and `make` gives the
tables, and nothing when `amount > 0` and `make` panics. -/
theorem Calculate_outcome (packSizes : List Int) (c : Calculator)
    (hnew : New packSizes = .ok c) (hsizes : ∀ x ∈ packSizes, IsInt x) (amount : Int)
    (hamount : IsInt amount) :
    (amount ≤ 0 → Calculate c amount = some (.error .ErrInvalidAmount)) ∧
      (0 < amount → Allocates c amount → ∃ plan, Calculate c amount = some (.ok plan)) ∧
      (0 < amount → ¬ Allocates c amount → Calculate c amount = none) := by
  obtain ⟨hv, _⟩ := valid_of_New packSizes c hnew
  refine ⟨?_, ?_, ?_⟩
  · intro h
    simp [Calculate, h]
  · intro ha hfit
    obtain ⟨plan, h1, _, _⟩ := Calculate_result c hv amount ha hfit
    exact ⟨plan, h1⟩
  · intro ha hno
    exact Calculate_panics c hv amount ha hamount (isInt_head packSizes c hnew hsizes) hno

theorem single_pack_result (p amount : Int) (hp : 0 < p) (ha : 0 < amount)
    (hfit : Allocates { packSizes := [p] } amount) :
    CalculateWithDetails { packSizes := [p] } amount =
      some (.ok { Packs := [(p, (amount + p - 1) / p)]
                  TotalItems := p * ((amount + p - 1) / p)
                  TotalPacks := (amount + p - 1) / p
                  OrderAmount := amount }) := by
  have hv : ValidCalc { packSizes := [p] } := ⟨by simp, by simpa using hp⟩
  have hq : (amount + p - 1).tdiv p = (amount + p - 1) / p :=
    Int.tdiv_eq_ediv (by omega) (by omega)
  by_cases ht : targetOf { packSizes := [p] } amount = -1
  · have hcalc := Calculate_fallback _ hv amount ha hfit ht
    rw [CalculateWithDetails_ok _ _ _ hcalc]
    simp [fallbackPlan, planItems, planPacks, hq]
  · obtain ⟨plan, h1, h2, h3, h4⟩ := Calculate_normal _ hv amount ha ht
    have hnd := Calculate_nodup _ hv amount ha hfit plan h1
    rcases targetOf_spec _ hv amount ha hfit with ⟨h, _⟩ | ⟨t1, t2, t3, t4⟩
    · exact absurd h ht
    · have hne : plan ≠ [] := by
        intro hnil
        rw [hnil] at h2
        simp [planItems] at h2
        omega
      obtain ⟨v, hplan, hv1⟩ := single_key_plan p plan h4 hnd hne
      subst hplan
      have hitems : p * v = targetOf { packSizes := [p] } amount := by
        rw [← h2]
        simp [planItems]
      have hpacks : v = idx (tableOf { packSizes := [p] } amount).dp
          (targetOf { packSizes := [p] } amount) := by
        rw [← h3]
        simp [planPacks]
      have hinv := tableOf_inv _ hv amount ha hfit
      have hvlt : v < impossible := by
        have := hinv.dp_le _ (by omega) t2
        omega
      have hlow : p * (v - 1) < amount := by
        by_contra hcon
        have hl : PacksOf [p] (List.replicate (v - 1).toNat p) := by
          intro x hx
          rw [List.eq_of_mem_replicate hx]
          simp
        have hsum : (List.replicate (v - 1).toNat p).sum = p * (v - 1) := by
          rw [List.sum_replicate]
          simp only [nsmul_eq_mul]
          have hc : (((v - 1).toNat : Nat) : Int) = v - 1 := by omega
          rw [hc]
          ring
        have hexp : p * (v - 1) = p * v - p := by ring
        have hd := dp_of_reach _ hv amount ha hfit _ hl (by rw [hsum]; omega)
          (by rw [List.length_replicate]; omega)
        rw [hsum] at hd
        exact hd.2 (t4 _ (by omega) (by omega))
      have hceil := ceil_div_unique amount p v hp (by omega) hlow
      rw [CalculateWithDetails_ok _ _ _ h1, hceil]
      simp [planItems, planPacks]

/-! ## Requests with an input error -/

theorem requestAmount_invalid (call : CalculateCall) (hbad : InvalidAmount call) :
    requestAmount call = none ∨ ∃ a, requestAmount call = some a ∧ a ≤ 0 := by
  obtain ⟨method, q, body⟩ := call
  cases method with
  | GET =>
    left
    by_cases hq : q = ""
    · simp [requestAmount, hq]
    · have hparse : parsePositiveInt q = .error .ErrInvalidAmount := by
        by_cases hd : ∀ ch ∈ q.toList, IsDigit ch
        · simp only [InvalidAmount] at hbad
          rcases hbad with h | ⟨ch, hch, hnd⟩ | h
          · exact absurd h hq
          · exact absurd (hd ch hch) hnd
          · rw [parsePositiveInt_of_small q hd (by rw [h]; decide), if_pos h]
        · push_neg at hd
          exact parsePositiveInt_non_digit q hd
      simp [requestAmount, hq, hparse]
  | POST =>
    cases body with
    | none =>
      left
      simp [requestAmount]
    | some req =>
      right
      simp only [InvalidAmount] at hbad
      exact ⟨req.Amount, by simp [requestAmount], hbad⟩

/-! ## Claims -/

/-- C3: for a non-empty list of positive pack sizes and an amount above zero, every plan
that `Calculate` returns has `sum(size * qty) >= amount`, every result that
`CalculateWithDetails` returns has `TotalItems >= OrderAmount`, and both return whenever
`make` gives the tables. -/
theorem coverage (packSizes : List Int) (amount : Int) (c : Calculator)
    (hnew : New packSizes = .ok c) (hsizes : ∀ x ∈ packSizes, IsInt x)
    (hamount : IsInt amount) (ha : 0 < amount) :
    (∀ plan, Calculate c amount = some (.ok plan) → amount ≤ planItems plan) ∧
      (∀ r, CalculateWithDetails c amount = some (.ok r) → r.OrderAmount ≤ r.TotalItems) ∧
      (Allocates c amount → ∃ plan r, Calculate c amount = some (.ok plan) ∧
        CalculateWithDetails c amount = some (.ok r)) := by
  obtain ⟨hv, _⟩ := valid_of_New packSizes c hnew
  have hcover : ∀ plan, Calculate c amount = some (.ok plan) → amount ≤ planItems plan := by
    intro plan h
    have hfit := allocates_of_plan packSizes c hnew hsizes amount hamount ha _ h
    obtain ⟨plan2, h1, _, h3⟩ := Calculate_result c hv amount ha hfit
    rw [h] at h1
    simp only [Option.some.injEq, Except.ok.injEq] at h1
    rw [h1]
    exact h3
  refine ⟨hcover, ?_, ?_⟩
  · intro r hr
    obtain ⟨plan, hplan, hr2⟩ := details_of_ok c amount r hr
    rw [hr2]
    exact hcover plan hplan
  · intro hfit
    obtain ⟨plan, h1, _, _⟩ := Calculate_result c hv amount ha hfit
    exact ⟨plan, _, h1, CalculateWithDetails_ok c amount plan h1⟩

theorem coverage_witness :
    ∃ plan r, Calculate { packSizes := [3, 2] } 4 = some (.ok plan) ∧ 4 ≤ planItems plan ∧
      CalculateWithDetails { packSizes := [3, 2] } 4 = some (.ok r) ∧
      r.OrderAmount ≤ r.TotalItems := by
  have h := coverage [2, 3] 4 { packSizes := [3, 2] } rfl (by decide) (by decide) (by decide)
  obtain ⟨plan, r, h1, h2⟩ := h.2.2 (by decide)
  exact ⟨plan, r, h1, h.1 plan h1, h2, h.2.1 r h2⟩

/-- C4: for a non-empty list of positive pack sizes and an amount above zero, in every map
that `Calculate` returns each key is one of the pack sizes and each stored quantity is at
least one, and `Calculate` returns a map whenever `make` gives the tables. -/
theorem plan_well_formed (packSizes : List Int) (amount : Int) (c : Calculator)
    (hnew : New packSizes = .ok c) (hsizes : ∀ x ∈ packSizes, IsInt x)
    (hamount : IsInt amount) (ha : 0 < amount) :
    (∀ plan, Calculate c amount = some (.ok plan) →
        ∀ e ∈ plan, e.1 ∈ packSizes ∧ 1 ≤ e.2) ∧
      (Allocates c amount → ∃ plan, Calculate c amount = some (.ok plan)) := by
  obtain ⟨hv, hmem⟩ := valid_of_New packSizes c hnew
  constructor
  · intro plan h e he
    have hfit := allocates_of_plan packSizes c hnew hsizes amount hamount ha _ h
    obtain ⟨plan2, h1, h2, _⟩ := Calculate_result c hv amount ha hfit
    rw [h] at h1
    simp only [Option.some.injEq, Except.ok.injEq] at h1
    rw [← h1] at h2
    exact ⟨(hmem _).1 (h2 e he).1, (h2 e he).2⟩
  · intro hfit
    obtain ⟨plan, h1, _, _⟩ := Calculate_result c hv amount ha hfit
    exact ⟨plan, h1⟩

theorem plan_well_formed_witness :
    ∃ plan, Calculate { packSizes := [3, 2] } 4 = some (.ok plan) ∧
      ∀ e ∈ plan, e.1 ∈ [2, 3] ∧ 1 ≤ e.2 := by
  have h := plan_well_formed [2, 3] 4 { packSizes := [3, 2] } rfl (by decide) (by decide)
    (by decide)
  obtain ⟨plan, h1⟩ := h.2 (by decide)
  exact ⟨plan, h1, h.1 plan h1⟩

/-- C5: `CalculateWithDetails` is a derived view of `Calculate`: on a plan `P` it returns
`Packs = P`, `TotalItems` the sum of `size * qty`, `TotalPacks` the sum of `qty` and
`OrderAmount = amount`; on an error it returns no result and the same error. -/
theorem derived_totals (c : Calculator) (amount : Int) :
    CalculateWithDetails c amount =
      match Calculate c amount with
      | none => none
      | some (.error e) => some (.error e)
      | some (.ok P) =>
        some (.ok { Packs := P
                    TotalItems := (P.map (fun e => e.1 * e.2)).sum
                    TotalPacks := (P.map (fun e => e.2)).sum
                    OrderAmount := amount }) := by
  cases h : Calculate c amount with
  | none => simp [CalculateWithDetails, h]
  | some r =>
    cases r with
    | error e => simp [CalculateWithDetails, h]
    | ok P =>
      rw [CalculateWithDetails_ok c amount P h]
      rfl

/-- C6, at the failing input `New([1])`, `Calculate(9223372036854775807)`: the amount is
above zero, `maxTarget := amount + largestPack` wraps around to `-9223372036854775808`,
`make([]int, maxTarget+1)` panics, and `Calculate` returns neither a plan nor an error. -/
theorem calculate_panics_at_max_int :
    ∃ c, New [1] = .ok c ∧ (0 : Int) < 9223372036854775807 ∧
      IsInt 9223372036854775807 ∧
      maxTargetOf c 9223372036854775807 = -9223372036854775808 ∧
      Calculate c 9223372036854775807 = none :=
  ⟨{ packSizes := [1] }, rfl, by decide, by decide, by decide,
    Calculate_panics _ validCalc_one 9223372036854775807 (by decide) (by decide) (by decide)
      (by decide)⟩

/-- C7: `New` returns `ErrNoPackSizes` exactly for the empty list, `ErrInvalidPackSize`
exactly for a non-empty list with an element `<= 0`, and a calculator otherwise. -/
theorem pack_size_validation (packSizes : List Int) :
    (New packSizes = .error .ErrNoPackSizes ↔ packSizes = []) ∧
    (New packSizes = .error .ErrInvalidPackSize ↔
      packSizes ≠ [] ∧ ∃ x ∈ packSizes, x ≤ 0) ∧
    ((∃ c, New packSizes = .ok c) ↔ packSizes ≠ [] ∧ ∀ x ∈ packSizes, 0 < x) := by
  by_cases hne : packSizes = []
  · subst hne
    simp [New_nil]
  · rcases valid_or_invalid packSizes with hv | hi
    · have hnew := New_of_valid packSizes hne hv
      have hno : ¬ ∃ x ∈ packSizes, x ≤ 0 := by
        rintro ⟨x, hx, hx0⟩
        have := hv x hx
        omega
      refine ⟨?_, ?_, ?_⟩
      · simp [hnew, hne]
      · rw [hnew]
        constructor
        · intro h
          cases h
        · rintro ⟨_, h⟩
          exact absurd h hno
      · constructor
        · intro _
          exact ⟨hne, hv⟩
        · intro _
          exact ⟨_, hnew⟩
    · have hnew := New_of_invalid packSizes hne hi
      have hno : ¬ ∀ x ∈ packSizes, 0 < x := by
        intro h
        obtain ⟨x, hx, hx0⟩ := hi
        have := h x hx
        omega
      refine ⟨?_, ?_, ?_⟩
      · simp [hnew, hne]
      · simp only [hnew, true_iff]
        exact ⟨hne, hi⟩
      · constructor
        · rintro ⟨c, hc⟩
          rw [hnew] at hc
          cases hc
        · rintro ⟨_, h⟩
          exact absurd h hno

/-- C8, at the failing input `New([1])`, `Calculate(2147483647)`: the scan over
`amount..amount+largest` finds only sentinel entries, `target` stays `-1` and the fallback
branch returns its plan. -/
theorem fallback_is_reached :
    ∃ c, New [1] = .ok c ∧ targetOf c 2147483647 = -1 ∧
      Calculate c 2147483647 = some (.ok [(1, 2147483647)]) := by
  refine ⟨{ packSizes := [1] }, rfl, target_one, ?_⟩
  rw [Calculate_fallback _ validCalc_one 2147483647 (by decide) (by decide) target_one]
  rfl

/-- C2, at the failing input `New([2, 1])`, `CalculateWithDetails(4294967293)`: the result
has `TotalItems = 4294967293` with `TotalPacks = 4294967293`, although 2147483646 packs of
2 and one pack of 1 reach the same total with 2147483647 packs. -/
theorem pack_count_not_minimal :
    ∃ c r, New [2, 1] = .ok c ∧ CalculateWithDetails c 4294967293 = some (.ok r) ∧
      r.TotalItems = 4294967293 ∧ r.TotalPacks = 4294967293 ∧
      ∃ l : List Int, PacksOf [2, 1] l ∧ l.sum = r.TotalItems ∧
        (l.length : Int) < r.TotalPacks := by
  have hcalc := Calculate_fallback _ validCalc_two_one 4294967293 (by decide) (by decide)
    target_two_one
  refine ⟨{ packSizes := [2, 1] }, _, rfl, CalculateWithDetails_ok _ _ _ hcalc, ?_, ?_, ?_⟩
  · rfl
  · rfl
  · refine ⟨1 :: List.replicate 2147483646 2, ?_, ?_, ?_⟩
    · intro x hx
      rcases List.mem_cons.1 hx with rfl | hx
      · simp
      · rw [List.eq_of_mem_replicate hx]
        simp
    · rw [List.sum_cons, List.sum_replicate]
      rfl
    · rw [List.length_cons, List.length_replicate]
      decide

/-- C1, at the failing input `New([3, 1])`, `CalculateWithDetails(6442450937)`: the result
has `TotalItems = 6442450938`, although 6442450937 packs of 1 reach the amount exactly. -/
theorem total_items_not_minimal :
    ∃ c r, New [3, 1] = .ok c ∧ CalculateWithDetails c 6442450937 = some (.ok r) ∧
      r.TotalItems = 6442450938 ∧
      ∃ l : List Int, PacksOf [3, 1] l ∧ 6442450937 ≤ l.sum ∧ l.sum < r.TotalItems := by
  have ht : targetOf { packSizes := [3, 1] } 6442450937 ≠ -1 := by
    rw [target_three_one]
    decide
  obtain ⟨plan, h1, h2, _, _⟩ := Calculate_normal _ validCalc_three_one 6442450937 (by decide) ht
  rw [target_three_one] at h2
  refine ⟨{ packSizes := [3, 1] }, _, rfl, CalculateWithDetails_ok _ _ _ h1, h2, ?_⟩
  refine ⟨List.replicate 6442450937 1, ?_, ?_, ?_⟩
  · intro x hx
    rw [List.eq_of_mem_replicate hx]
    simp
  · rw [List.sum_replicate]
    simp
  · rw [List.sum_replicate]
    show _ < planItems plan
    rw [h2]
    simp

/-- C9, at the failing input `New([3, 1])`, `CalculateWithDetails(6442450937)`: the
smallest pack size is 1 and the result has `TotalItems = amount + 1`, above
`amount + smallest - 1`. -/
theorem overage_bound_exceeded :
    ∃ c r, New [3, 1] = .ok c ∧ CalculateWithDetails c 6442450937 = some (.ok r) ∧
      c.packSizes.getLastD 0 = 1 ∧
      r.TotalItems > r.OrderAmount + c.packSizes.getLastD 0 - 1 := by
  have ht : targetOf { packSizes := [3, 1] } 6442450937 ≠ -1 := by
    rw [target_three_one]
    decide
  obtain ⟨plan, h1, h2, _, _⟩ := Calculate_normal _ validCalc_three_one 6442450937 (by decide) ht
  rw [target_three_one] at h2
  refine ⟨{ packSizes := [3, 1] }, _, rfl, CalculateWithDetails_ok _ _ _ h1, rfl, ?_⟩
  show planItems plan > 6442450937 + 1 - 1
  rw [h2]
  decide

/-- C10: for a single pack size `p > 0` and an amount above zero, every result that
`CalculateWithDetails` on `New([p])` returns is the plan `{p: ceil(amount/p)}` with
`TotalPacks = ceil(amount/p)` and `TotalItems = p * ceil(amount/p)`, and it returns that
result whenever `make` gives the tables. -/
theorem single_pack_size (p amount : Int) (hp : 0 < p) (ha : 0 < amount) (hpint : IsInt p)
    (hamount : IsInt amount) :
    ∃ c, New [p] = .ok c ∧
      (∀ r, CalculateWithDetails c amount = some (.ok r) →
        r = { Packs := [(p, (amount + p - 1) / p)]
              TotalItems := p * ((amount + p - 1) / p)
              TotalPacks := (amount + p - 1) / p
              OrderAmount := amount }) ∧
      (Allocates c amount →
        CalculateWithDetails c amount =
          some (.ok { Packs := [(p, (amount + p - 1) / p)]
                      TotalItems := p * ((amount + p - 1) / p)
                      TotalPacks := (amount + p - 1) / p
                      OrderAmount := amount })) := by
  have hnew : New [p] = .ok { packSizes := [p] } := by
    rw [New_of_valid [p] (by simp) (by simpa using hp)]
    simp [sortDescending]
  refine ⟨_, hnew, ?_, single_pack_result p amount hp ha⟩
  intro r hr
  obtain ⟨plan, hplan, _⟩ := details_of_ok _ amount r hr
  have hfit := allocates_of_plan [p] _ hnew (by simpa using hpint) amount hamount ha _ hplan
  rw [single_pack_result p amount hp ha hfit] at hr
  simp only [Option.some.injEq, Except.ok.injEq] at hr
  exact hr.symm

theorem single_pack_size_witness :
    ∃ c, New [100] = .ok c ∧
      CalculateWithDetails c 101 =
        some (.ok { Packs := [(100, (101 + 100 - 1) / 100)]
                    TotalItems := 100 * ((101 + 100 - 1) / 100)
                    TotalPacks := (101 + 100 - 1) / 100
                    OrderAmount := 101 }) := by
  obtain ⟨c, hnew, _, h⟩ := single_pack_size 100 101 (by decide) (by decide) (by decide)
    (by decide)
  have hc : c = { packSizes := [100] } := by
    have h2 : New [100] = .ok { packSizes := [100] } := rfl
    rw [h2] at hnew
    simp only [Except.ok.injEq] at hnew
    exact hnew.symm
  subst hc
  exact ⟨_, rfl, h (by decide)⟩

/-- C11: for a non-empty list `s` of positive integers, `New` returns a calculator whose
`GetPackSizes` is a permutation of `s`, duplicates kept, in non-increasing order. -/
theorem sorted_view (s : List Int) (hne : s ≠ []) (hpos : ∀ x ∈ s, 0 < x) :
    ∃ c, New s = .ok c ∧ (GetPackSizes c).Perm s ∧
      (GetPackSizes c).Sorted (fun a b => b ≤ a) :=
  ⟨_, New_of_valid s hne hpos, sortDescending_perm s, sortDescending_sorted s⟩

theorem sorted_view_witness :
    ∃ c, New [2, 3, 2] = .ok c ∧ (GetPackSizes c).Perm [2, 3, 2] ∧
      (GetPackSizes c).Sorted (fun a b => b ≤ a) :=
  sorted_view [2, 3, 2] (by decide) (by decide)

/-- C12: for every calculator `c` and non-empty list `s` of positive integers,
`SetPackSizes` on `c` returns `nil`, and afterwards `GetPackSizes` and `Calculate` at
every amount are those of the calculator returned by `New` on `s`, whatever `c` held. -/
theorem set_pack_sizes_rebuilds (c : Calculator) (s : List Int) (hne : s ≠ [])
    (hpos : ∀ x ∈ s, 0 < x) :
    ∃ c2, New s = .ok c2 ∧ (SetPackSizes c s).2 = none ∧
      GetPackSizes (SetPackSizes c s).1 = GetPackSizes c2 ∧
      ∀ a, Calculate (SetPackSizes c s).1 a = Calculate c2 a := by
  refine ⟨_, New_of_valid s hne hpos, ?_, ?_, ?_⟩
  · rw [SetPackSizes_of_valid c s hne hpos]
  · rw [SetPackSizes_of_valid c s hne hpos]
  · intro a
    rw [SetPackSizes_of_valid c s hne hpos]

theorem set_pack_sizes_rebuilds_witness :
    ∃ c2, New [2, 3] = .ok c2 ∧ (SetPackSizes { packSizes := [500, 250] } [2, 3]).2 = none ∧
      GetPackSizes (SetPackSizes { packSizes := [500, 250] } [2, 3]).1 = GetPackSizes c2 ∧
      ∀ a, Calculate (SetPackSizes { packSizes := [500, 250] } [2, 3]).1 a = Calculate c2 a :=
  set_pack_sizes_rebuilds { packSizes := [500, 250] } [2, 3] (by decide) (by decide)

/-- C13: for two non-empty lists of positive pack sizes that are permutations of each
other and an amount above zero, `CalculateWithDetails` on the two calculators built by
`New` has the same outcome, so two returned results have the same `TotalItems` and the
same `TotalPacks`; both return a result whenever `make` gives the tables. -/
theorem order_independence (s1 s2 : List Int) (amount : Int) (hne : s1 ≠ [])
    (hpos : ∀ x ∈ s1, 0 < x) (hperm : s1.Perm s2) (ha : 0 < amount) :
    ∃ c1 c2, New s1 = .ok c1 ∧ New s2 = .ok c2 ∧
      CalculateWithDetails c1 amount = CalculateWithDetails c2 amount ∧
      (∀ r1 r2, CalculateWithDetails c1 amount = some (.ok r1) →
        CalculateWithDetails c2 amount = some (.ok r2) →
        r1.TotalItems = r2.TotalItems ∧ r1.TotalPacks = r2.TotalPacks) ∧
      (Allocates c1 amount → ∃ r1 r2, CalculateWithDetails c1 amount = some (.ok r1) ∧
        CalculateWithDetails c2 amount = some (.ok r2)) := by
  have hne2 : s2 ≠ [] := by
    intro h
    rw [h] at hperm
    exact hne hperm.eq_nil
  have hpos2 : ∀ x ∈ s2, 0 < x := fun x hx => hpos x (hperm.mem_iff.2 hx)
  have hn1 := New_of_valid s1 hne hpos
  have hn2 := New_of_valid s2 hne2 hpos2
  rw [← sortDescending_congr s1 s2 hperm] at hn2
  obtain ⟨hv, _⟩ := valid_of_New s1 _ hn1
  refine ⟨_, _, hn1, hn2, rfl, ?_, ?_⟩
  · intro r1 r2 h1 h2
    rw [h1] at h2
    simp only [Option.some.injEq, Except.ok.injEq] at h2
    rw [h2]
    exact ⟨rfl, rfl⟩
  · intro hfit
    obtain ⟨plan, hp, _, _⟩ := Calculate_result _ hv amount ha hfit
    have hd := CalculateWithDetails_ok _ amount plan hp
    exact ⟨_, _, hd, hd⟩

theorem order_independence_witness :
    ∃ c1 c2 r1 r2, New [2, 3] = .ok c1 ∧ New [3, 2] = .ok c2 ∧
      CalculateWithDetails c1 4 = some (.ok r1) ∧
      CalculateWithDetails c2 4 = some (.ok r2) ∧
      r1.TotalItems = r2.TotalItems ∧ r1.TotalPacks = r2.TotalPacks := by
  obtain ⟨c1, c2, h1, h2, _, h4, h5⟩ :=
    order_independence [2, 3] [3, 2] 4 (by decide) (by decide) (by decide) (by decide)
  have hc : c1 = { packSizes := [3, 2] } := by
    have h : New [2, 3] = .ok { packSizes := [3, 2] } := rfl
    rw [h] at h1
    simp only [Except.ok.injEq] at h1
    exact h1.symm
  subst hc
  obtain ⟨r1, r2, g1, g2⟩ := h5 (by decide)
  exact ⟨_, c2, r1, r2, h1, h2, g1, g2, h4 r1 r2 g1 g2⟩

/-- C15: `AddPackSize` returns false exactly when the size already occurs in the stored
sequence, and then the stored sequence is unchanged; otherwise it returns true and the
stored sequence is the old one with the size appended at the end. -/
theorem registry_add (s : MemoryStorage) (size : Int) :
    ((s.AddPackSize size).2 = false ↔ size ∈ s.GetPackSizes) ∧
      (s.AddPackSize size).1.GetPackSizes =
        if size ∈ s.GetPackSizes then s.GetPackSizes else s.GetPackSizes ++ [size] := by
  unfold MemoryStorage.AddPackSize MemoryStorage.GetPackSizes
  by_cases h : size ∈ s.packSizes
  · simp [h, (hasSize_iff s.packSizes size).2 h]
  · have h2 : ¬ hasSize s.packSizes size = true := fun e => h ((hasSize_iff _ _).1 e)
    simp [h, h2]

/-- C16: `RemovePackSize` returns true exactly when the size occurs in the stored
sequence; when it does not occur the call returns false and leaves the sequence
unchanged, and when it occurs the call returns true and deletes the first occurrence,
which shortens the sequence by one and keeps the order of the other elements. -/
theorem registry_remove (s : MemoryStorage) (size : Int) :
    ((s.RemovePackSize size).2 = true ↔ size ∈ s.GetPackSizes) ∧
      ((size ∉ s.GetPackSizes ∧ s.RemovePackSize size = (s, false)) ∨
        ∃ before after, s.GetPackSizes = before ++ size :: after ∧ size ∉ before ∧
          (s.RemovePackSize size).2 = true ∧
          (s.RemovePackSize size).1.GetPackSizes = before ++ after ∧
          (s.RemovePackSize size).1.GetPackSizes = s.GetPackSizes.erase size ∧
          (s.RemovePackSize size).1.GetPackSizes.length + 1 = s.GetPackSizes.length) := by
  unfold MemoryStorage.GetPackSizes
  by_cases h : size ∈ s.packSizes
  · obtain ⟨before, after, h1, h2, h3⟩ := RemovePackSize_present s size h
    refine ⟨by simp [h3, h], Or.inr ⟨before, after, h1, h2, ?_, ?_, ?_, ?_⟩⟩
    · rw [h3]
    · rw [h3]
    · rw [h3, h1, List.erase_append_right _ h2, List.erase_cons_head]
    · rw [h3, h1]
      simp only [List.length_append, List.length_cons]
      omega
  · have h3 := RemovePackSize_absent s size h
    exact ⟨by simp [h3, h], Or.inl ⟨h, h3⟩⟩

/-- C17, as written: a storage built by `NewMemoryStorageWithSizes` from `[5, 5]` answers
true to `RemovePackSize` of `5`, and `5` still occurs in the next `GetPackSizes`; the
same happens after `SetPackSizes` with `[5, 5]`. -/
theorem removed_size_remains :
    ((NewMemoryStorageWithSizes [5, 5]).RemovePackSize 5).2 = true ∧
      5 ∈ ((NewMemoryStorageWithSizes [5, 5]).RemovePackSize 5).1.GetPackSizes ∧
      (((NewMemoryStorage.SetPackSizes [5, 5]).1).RemovePackSize 5).2 = true ∧
      5 ∈ (((NewMemoryStorage.SetPackSizes [5, 5]).1).RemovePackSize 5).1.GetPackSizes := by
  decide

/-- C17, amended: in a storage whose sequence holds the size at most once, in particular
in one without repeated values, a `RemovePackSize` that returns true leaves a sequence in
which the size does not occur. -/
theorem removed_size_is_gone (s : MemoryStorage) (size : Int)
    (hcount : s.GetPackSizes.count size ≤ 1) (hrem : (s.RemovePackSize size).2 = true) :
    size ∉ (s.RemovePackSize size).1.GetPackSizes := by
  unfold MemoryStorage.GetPackSizes at *
  by_cases h : size ∈ s.packSizes
  · obtain ⟨before, after, h1, h2, h3⟩ := RemovePackSize_present s size h
    rw [h3]
    rw [h1, List.count_append, List.count_cons_self] at hcount
    have hc : after.count size = 0 := by omega
    intro hm
    rcases List.mem_append.1 hm with e | e
    · exact h2 e
    · exact (List.count_eq_zero.1 hc) e
  · rw [RemovePackSize_absent s size h] at hrem
    cases hrem

theorem removed_size_is_gone_witness :
    (200 : Int) ∉
      ((NewMemoryStorageWithSizes [100, 200, 300]).RemovePackSize 200).1.GetPackSizes :=
  removed_size_is_gone (NewMemoryStorageWithSizes [100, 200, 300]) 200 (by decide) (by decide)

/-- C18: `SetPackSizes` of the storage returns `nil` and the next `GetPackSizes` returns
the list given, element for element, whatever the storage held before; and
`GetPackSizes` on `NewMemoryStorageWithSizes` of a list returns that list. -/
theorem registry_round_trip (s : MemoryStorage) (sizes : List Int) :
    (s.SetPackSizes sizes).2 = none ∧ (s.SetPackSizes sizes).1.GetPackSizes = sizes ∧
      (NewMemoryStorageWithSizes sizes).GetPackSizes = sizes :=
  ⟨rfl, rfl, rfl⟩

/-- C19, as written: from `NewMemoryStorage`, the call `AddPackSize` of `0` leaves a
sequence that holds `0`, and the call `SetPackSizes` of `[-1]` leaves one that holds
`-1`. -/
theorem registry_holds_nonpositive :
    (∃ x ∈ (runOps NewMemoryStorage [.add 0]).GetPackSizes, x ≤ 0) ∧
      ∃ x ∈ (runOps NewMemoryStorage [.set [-1]]).GetPackSizes, x ≤ 0 :=
  ⟨⟨0, by decide, by decide⟩, ⟨-1, by decide, by decide⟩⟩

/-- C19, amended: in every state reached from `NewMemoryStorage` by `SetPackSizes`,
`AddPackSize` and `RemovePackSize` calls whose `SetPackSizes` lists and `AddPackSize`
sizes are all positive, `GetPackSizes` returns only positive integers. -/
theorem registry_positive (ops : List StorageOp) (hops : ∀ op ∈ ops, op.Positive) :
    ∀ x ∈ (runOps NewMemoryStorage ops).GetPackSizes, 0 < x :=
  runOps_positive ops NewMemoryStorage (by decide) hops

theorem registry_positive_witness :
    (23 : Int) ∈ (runOps NewMemoryStorage
        [.add 100, .remove 500, .set [23, 31], .add 53]).GetPackSizes ∧ (0 : Int) < 23 :=
  ⟨by decide,
    registry_positive [.add 100, .remove 500, .set [23, 31], .add 53] (by
      intro op hop
      simp only [List.mem_cons, List.mem_singleton, List.not_mem_nil, or_false] at hop
      rcases hop with h | h | h | h <;> subst h <;> simp [StorageOp.Positive]) 23 (by decide)⟩

/-- C20: the handler `Calculate` answers 400 to every request without a usable amount
(missing, not a digit string, zero or below) and to every request whose effective pack
sizes (its own `pack_sizes` when non-empty, else the contents of the registry) are empty
or hold a value `<= 0`; and no reply of the handler has status 500, so the
`calculation_error` branch is never reached. -/
theorem input_errors_are_client_errors (h : Handler) (call : CalculateCall) :
    (InvalidCall h call → ∃ code, h.Calculate call = some (.failure 400 code)) ∧
      ∀ r, h.Calculate call = some r → r.status = 400 ∨ r.status = 200 := by
  constructor
  · intro hinv
    cases hs : requestAmount call with
    | none => exact Calculate_no_amount h call hs
    | some a =>
      rw [Calculate_with_amount h call a hs]
      apply respondCalculate_invalid
      rcases hinv with h1 | h2 | h3
      · rcases requestAmount_invalid call h1 with e | ⟨a2, e, ha2⟩
        · rw [e] at hs
          cases hs
        · rw [e] at hs
          simp only [Option.some.injEq] at hs
          exact Or.inl (by omega)
      · exact Or.inr (Or.inl h2)
      · exact Or.inr (Or.inr h3)
  · intro r hr
    cases hs : requestAmount call with
    | none =>
      obtain ⟨code, hc⟩ := Calculate_no_amount h call hs
      rw [hc] at hr
      cases hr
      exact Or.inl rfl
    | some a =>
      rw [Calculate_with_amount h call a hs] at hr
      exact respondCalculate_status a _ r hr

theorem input_errors_are_client_errors_witness :
    (∃ code, Handler.Calculate { storage := NewMemoryStorage }
        { method := .GET, amountQuery := "-5", body := none } =
          some (.failure 400 code)) ∧
      ∃ code, Handler.Calculate { storage := NewMemoryStorage }
        { method := .POST, amountQuery := "",
          body := some { Amount := 7, PackSizes := [3, 0] } } =
          some (.failure 400 code) :=
  ⟨(input_errors_are_client_errors { storage := NewMemoryStorage }
      { method := .GET, amountQuery := "-5", body := none }).1
      (Or.inl (Or.inr (Or.inl ⟨'-', by decide, by decide⟩))),
    (input_errors_are_client_errors { storage := NewMemoryStorage }
      { method := .POST, amountQuery := "",
        body := some { Amount := 7, PackSizes := [3, 0] } }).1
      (Or.inr (Or.inr ⟨0, by decide, by decide⟩))⟩

/-- C14: for a non-empty list of positive pack sizes, possibly with repeated values, and
an amount above zero, `Calculate` has the same outcome as it has for a list of the same
values without repetition, such as the list with its duplicates removed; whenever `make`
gives the tables, both calls return the same plan. -/
theorem duplicates_tolerated (packSizes d : List Int) (amount : Int) (hne : packSizes ≠ [])
    (hpos : ∀ x ∈ packSizes, 0 < x) (hd : d.Nodup) (hsub : ∀ x ∈ d, x ∈ packSizes)
    (hall : ∀ x ∈ packSizes, x ∈ d) (ha : 0 < amount) :
    ∃ c1 c2, New packSizes = .ok c1 ∧ New d = .ok c2 ∧ New packSizes.dedup = .ok c2 ∧
      Calculate c1 amount = Calculate c2 amount ∧
      (Allocates c1 amount → ∃ plan, Calculate c1 amount = some (.ok plan) ∧
        Calculate c2 amount = some (.ok plan)) := by
  have hmem : ∀ x, x ∈ d ↔ x ∈ packSizes := fun x => ⟨hsub x, hall x⟩
  have hned : d ≠ [] := by
    intro e
    cases hp : packSizes with
    | nil => exact hne hp
    | cons a rest =>
      have := (hmem a).2 (by rw [hp]; exact List.mem_cons_self _ _)
      rw [e] at this
      simp at this
  have hposd : ∀ x ∈ d, 0 < x := fun x hx => hpos x ((hmem x).1 hx)
  have hn1 := New_of_valid packSizes hne hpos
  have hn2 := New_of_valid d hned hposd
  have hn3 := New_of_valid packSizes.dedup (by simpa using hne)
    (fun x hx => hpos x (List.mem_dedup.1 hx))
  rw [sortDescending_nodup d packSizes hd hmem] at hn2
  rw [sortDescending_nodup packSizes.dedup packSizes (List.nodup_dedup _)
    (fun x => List.mem_dedup)] at hn3
  obtain ⟨hv, _⟩ := valid_of_New packSizes _ hn1
  have heq := Calculate_dedup { packSizes := sortDescending packSizes }
    (sortDescending_sorted packSizes) amount
  refine ⟨_, _, hn1, hn2, hn3, heq.symm, ?_⟩
  intro hfit
  obtain ⟨plan, hp, _, _⟩ := Calculate_result _ hv amount ha hfit
  refine ⟨plan, hp, ?_⟩
  rw [← hp]
  exact heq

theorem duplicates_tolerated_witness :
    ∃ c1 c2 plan, New [2, 3, 2] = .ok c1 ∧ New [2, 3] = .ok c2 ∧
      New [2, 3, 2].dedup = .ok c2 ∧
      Calculate c1 4 = some (.ok plan) ∧ Calculate c2 4 = some (.ok plan) := by
  obtain ⟨c1, c2, h1, h2, h3, _, h5⟩ :=
    duplicates_tolerated [2, 3, 2] [2, 3] 4 (by decide) (by decide) (by decide)
      (by decide) (by decide) (by decide)
  have hc : c1 = { packSizes := [3, 2, 2] } := by
    have h : New [2, 3, 2] = .ok { packSizes := [3, 2, 2] } := rfl
    rw [h] at h1
    simp only [Except.ok.injEq] at h1
    exact h1.symm
  subst hc
  obtain ⟨plan, g1, g2⟩ := h5 (by decide)
  exact ⟨_, c2, plan, h1, h2, h3, g1, g2⟩

/-- C21, at the failing input `New([1])`, `Calculate(2147483647)` and the total
`t = 2147483647`: after the build loop `dp[t]` is the sentinel, although `t` is the sum
of 2147483647 packs of size 1. -/
theorem table_entry_stays_sentinel :
    ∃ c, New [1] = .ok c ∧ (2147483647 : Int) ≤ maxTargetOf c 2147483647 ∧
      idx (tableOf c 2147483647).dp 2147483647 = impossible ∧
      ∃ l : List Int, PacksOf c.packSizes l ∧ l.sum = 2147483647 := by
  refine ⟨{ packSizes := [1] }, rfl, by decide, ?_, ?_⟩
  · rcases targetOf_spec _ validCalc_one 2147483647 (by decide) (by decide) with
      ⟨_, h⟩ | ⟨h1, _, _, _⟩
    · exact h 2147483647 (le_refl _) (by decide)
    · rw [target_one] at h1
      omega
  · refine ⟨List.replicate 2147483647 1, packsOf_replicate _ 1 (by simp) _, ?_⟩
    rw [List.sum_replicate]
    simp

/-- C22: for a non-empty list of positive pack sizes and an amount above zero for which
the scan finds a target `T`, the backtracking loop ends within `T` iterations with
`current == 0`, not through the `break` at `parent == -1`; the map it has built is the
one `Calculate` returns, with `sum(size * qty) = T` and `sum(qty) = dp[T]`. -/
theorem backtrack_reaches_zero (packSizes : List Int) (amount : Int) (c : Calculator)
    (hnew : New packSizes = .ok c) (ha : 0 < amount) (ht : targetOf c amount ≠ -1) :
    ∃ plan, backtrackState (tableOf c amount).parent (targetOf c amount).toNat
          (targetOf c amount) [] = some { result := plan, current := 0, broke := false } ∧
      Calculate c amount = some (.ok plan) ∧
      planItems plan = targetOf c amount ∧
      planPacks plan = idx (tableOf c amount).dp (targetOf c amount) := by
  obtain ⟨hv, _⟩ := valid_of_New packSizes c hnew
  have hfit := allocates_of_target c amount ht
  rcases targetOf_spec c hv amount ha hfit with ⟨h1, _⟩ | ⟨h1, h2, h3, _⟩
  · exact absurd h1 ht
  · have hinv := tableOf_inv c hv amount ha hfit
    obtain ⟨plan, hp1, hp2, hp3⟩ :=
      backtrackState_spec c.packSizes hv.2 (maxTargetOf c amount) (tableOf c amount) hinv
        (targetOf c amount).toNat (targetOf c amount) [] (by omega) h2 h3 (le_refl _)
    refine ⟨plan, hp1, ?_, ?_, ?_⟩
    · rw [Calculate_eq c hv amount ha hfit, if_neg ht, backtrack_eq_state, hp1]
      rfl
    · rw [hp2]
      simp [planItems]
    · rw [hp3]
      simp [planPacks]

theorem backtrack_reaches_zero_witness :
    ∃ plan, backtrackState (tableOf { packSizes := [5, 3] } 7).parent
          (targetOf { packSizes := [5, 3] } 7).toNat
          (targetOf { packSizes := [5, 3] } 7) [] =
        some { result := plan, current := 0, broke := false } ∧
      Calculate { packSizes := [5, 3] } 7 = some (.ok plan) ∧
      planItems plan = targetOf { packSizes := [5, 3] } 7 ∧
      planPacks plan =
        idx (tableOf { packSizes := [5, 3] } 7).dp (targetOf { packSizes := [5, 3] } 7) :=
  backtrack_reaches_zero [3, 5] 7 { packSizes := [5, 3] } rfl (by decide) (by decide)

/-- C24: for every calculator `c` and every list that is empty or holds a value `<= 0`,
`SetPackSizes` returns `ErrNoPackSizes` for the empty list and `ErrInvalidPackSize`
otherwise, and `GetPackSizes` afterwards is what it was before the call. -/
theorem set_pack_sizes_atomic (c : Calculator) (s : List Int)
    (hbad : s = [] ∨ ∃ x ∈ s, x ≤ 0) :
    (SetPackSizes c s).2 = some (if s = [] then .ErrNoPackSizes else .ErrInvalidPackSize) ∧
      GetPackSizes (SetPackSizes c s).1 = GetPackSizes c := by
  by_cases hne : s = []
  · subst hne
    rw [SetPackSizes_nil]
    exact ⟨rfl, rfl⟩
  · rcases hbad with h | h
    · exact absurd h hne
    · rw [SetPackSizes_of_invalid c s hne h, if_neg hne]
      exact ⟨rfl, rfl⟩

theorem set_pack_sizes_atomic_witness :
    (SetPackSizes { packSizes := [500, 250] } [3, 0]).2 =
        some (if [3, 0] = ([] : List Int) then .ErrNoPackSizes else .ErrInvalidPackSize) ∧
      GetPackSizes (SetPackSizes { packSizes := [500, 250] } [3, 0]).1 =
        GetPackSizes { packSizes := [500, 250] } :=
  set_pack_sizes_atomic { packSizes := [500, 250] } [3, 0] (Or.inr ⟨0, by decide, by decide⟩)

/-- C25: for every parsed request list, the handler `SetPackSizes` answers 400 and leaves
the registry as it was when the list is empty or holds a value `<= 0`; otherwise it
answers 200, the registry holds exactly the requested list and so does the `pack_sizes`
of the response. -/
theorem handler_set_validates (h : Handler) (sizes : List Int) :
    ((sizes = [] ∨ ∃ x ∈ sizes, x ≤ 0) ∧ (h.SetPackSizes (some sizes)).2.status = 400 ∧
        (h.SetPackSizes (some sizes)).1.storage.GetPackSizes = h.storage.GetPackSizes) ∨
      (sizes ≠ [] ∧ (∀ x ∈ sizes, 0 < x) ∧
        (h.SetPackSizes (some sizes)).2 = .success 200 sizes ∧
        (h.SetPackSizes (some sizes)).1.storage.GetPackSizes = sizes) := by
  by_cases hne : sizes = []
  · subst hne
    exact Or.inl ⟨Or.inl rfl, rfl, rfl⟩
  · have hlen : sizes.length ≠ 0 := fun h0 => hne (List.length_eq_zero.1 h0)
    rcases valid_or_invalid sizes with hv | hi
    · have hno : ¬ hasNonPositive sizes = true := by
        rw [hasNonPositive_iff]
        rintro ⟨x, hx, hx0⟩
        have := hv x hx
        omega
      right
      refine ⟨hne, hv, ?_, ?_⟩
      · simp [Handler.SetPackSizes, hlen, hno, MemoryStorage.SetPackSizes,
          MemoryStorage.GetPackSizes]
      · simp [Handler.SetPackSizes, hlen, hno, MemoryStorage.SetPackSizes,
          MemoryStorage.GetPackSizes]
    · have hyes : hasNonPositive sizes = true := (hasNonPositive_iff sizes).2 hi
      left
      refine ⟨Or.inr hi, ?_, ?_⟩
      · simp [Handler.SetPackSizes, hlen, hyes, SizesReply.status]
      · simp [Handler.SetPackSizes, hlen, hyes]

set_option maxRecDepth 8000 in
/-- C26, at the failing inputs: `parsePositiveInt` returns `(1, nil)` for the digit
string `18446744073709551617`, which denotes `2^64 + 1`, and `ErrInvalidAmount` for
the digit string `9223372036854775808`, which denotes the positive integer `2^63`. -/
theorem parse_wraps_around :
    parsePositiveInt "18446744073709551617" = .ok 1 ∧
      decimalValue "18446744073709551617".toList = 18446744073709551617 ∧
      parsePositiveInt "9223372036854775808" = .error .ErrInvalidAmount ∧
      decimalValue "9223372036854775808".toList = 9223372036854775808 :=
  ⟨rfl, rfl, rfl, rfl⟩


/-- C23, at the failing input `New([2, 1])`, `Calculate(4294967293)`: the returned plan is
4294967293 packs of size 1, while the non-increasing list of 2147483646 packs of size 2
and one pack of size 1 has the same total, fewer packs, and comes after the returned
plan in the lexicographic order. -/
theorem tie_break_misses_optimum :
    ∃ c plan, New [2, 1] = .ok c ∧ Calculate c 4294967293 = some (.ok plan) ∧
      plan = [(1, 4294967293)] ∧
      ∃ l : List Int, PacksOf c.packSizes l ∧ l.Sorted (fun a b => b ≤ a) ∧
        l.sum = planItems plan ∧ (l.length : Int) < planPacks plan ∧
        ¬ lexLe l (planList plan) := by
  have hcalc := Calculate_fallback _ validCalc_two_one 4294967293 (by decide) (by decide)
    target_two_one
  refine ⟨{ packSizes := [2, 1] }, [(1, 4294967293)], rfl, ?_, rfl,
    2 :: (List.replicate 2147483645 2 ++ [1]), ?_, ?_, ?_, ?_, ?_⟩
  · rw [hcalc]
    rfl
  · intro x hx
    rcases List.mem_cons.1 hx with e | e
    · simp [e]
    · rcases List.mem_append.1 e with e | e
      · rw [List.eq_of_mem_replicate e]
        simp
      · rw [List.mem_singleton] at e
        simp [e]
  · refine List.sorted_cons.2 ⟨?_, ?_⟩
    · intro b hb
      rcases List.mem_append.1 hb with e | e
      · rw [List.eq_of_mem_replicate e]
      · rw [List.mem_singleton] at e
        omega
    · refine List.pairwise_append.2 ⟨?_, List.pairwise_singleton _ _, ?_⟩
      · exact List.pairwise_replicate.2 (Or.inr (le_refl _))
      · intro a ha b hb
        rw [List.eq_of_mem_replicate ha]
        rw [List.mem_singleton] at hb
        omega
  · rw [List.sum_cons, List.sum_append, List.sum_replicate]
    rfl
  · rw [List.length_cons, List.length_append, List.length_replicate]
    decide
  · apply not_lexLe_of_lt
    intro x hx
    simp only [planList, List.append_nil] at hx
    rw [List.eq_of_mem_replicate hx]
    decide

end PackCalculator
